import Mathlib

/-!
Verification of `claude_skill_sync.py`: a utility that copies or syncs
"skill" directories (directories containing a `SKILL.md` marker file)
from source roots into a destination root, with conflict handling,
optional pruning, and a dry-run preview mode.

The filesystem is modelled as a flat list of entries: each entry is an
absolute path (a list of name segments) together with a node, which is
either a file with string content or a directory.  `shutil.rmtree`
removes every entry at or below a path; `shutil.copytree` re-roots every
entry at or below the source path onto the destination path;
`Path.mkdir(parents=True)` adds the missing ancestors of a path.
-/

namespace SkillSync

/-- Lexicographic comparison of character sequences, as Python compares
strings (by code point). -/
def charsLe : List Char → List Char → Bool
  | [], _ => true
  | _ :: _, [] => false
  | a :: as, b :: bs => if a < b then true else if b < a then false else charsLe as bs

/-- Python's `<=` on strings: lexicographic by code point. -/
def strLe (a b : String) : Bool := charsLe a.data b.data

/-- Python's `str.strip()`: drop leading and trailing whitespace. -/
def pyStrip (s : String) : String :=
  ⟨((s.data.dropWhile Char.isWhitespace).reverse.dropWhile Char.isWhitespace).reverse⟩

/-- Python's `str.lower()`. -/
def pyLower (s : String) : String := ⟨s.data.map Char.toLower⟩

/-- Python's `str.upper()`. -/
def pyUpper (s : String) : String := ⟨s.data.map Char.toUpper⟩

/-- Python's `str.startswith(".")`: the first character is a dot. -/
def startsDot (s : String) : Bool := s.data.take 1 == ['.']

def charsLe_total : ∀ a b : List Char, charsLe a b = true ∨ charsLe b a = true
  | [], _ => Or.inl rfl
  | _ :: _, [] => Or.inr rfl
  | a :: as, b :: bs => by
    rcases lt_trichotomy a b with h | h | h
    · left
      simp [charsLe, h]
    · subst h
      rcases charsLe_total as bs with ih | ih
      · left
        simp [charsLe, ih]
      · right
        simp [charsLe, ih]
    · right
      simp [charsLe, h]

def charsLe_trans : ∀ {a b c : List Char},
    charsLe a b = true → charsLe b c = true → charsLe a c = true
  | [], _, _, _, _ => rfl
  | _ :: _, [], _, h, _ => by simp [charsLe] at h
  | _ :: _, _ :: _, [], _, h => by simp [charsLe] at h
  | a :: as, b :: bs, c :: cs, h1, h2 => by
    by_cases hab : a < b
    · by_cases hbc : b < c
      · simp [charsLe, lt_trans hab hbc]
      · by_cases hcb : c < b
        · simp [charsLe, hbc, hcb] at h2
        · have : b = c := le_antisymm (not_lt.1 hcb) (not_lt.1 hbc)
          subst this
          simp [charsLe, hab]
    · by_cases hba : b < a
      · simp [charsLe, hab, hba] at h1
      · have : a = b := le_antisymm (not_lt.1 hba) (not_lt.1 hab)
        subst this
        by_cases hbc : a < c
        · simp [charsLe, hbc]
        · by_cases hcb : c < a
          · simp [charsLe, hbc, hcb] at h2
          · have : a = c := le_antisymm (not_lt.1 hcb) (not_lt.1 hbc)
            subst this
            simp [charsLe] at h1 h2 ⊢
            exact charsLe_trans h1 h2

def strLe_total (a b : String) : strLe a b = true ∨ strLe b a = true :=
  charsLe_total a.data b.data

def strLe_trans {a b c : String} (h1 : strLe a b = true) (h2 : strLe b c = true) :
    strLe a c = true :=
  charsLe_trans h1 h2

instance : IsTotal String (fun a b => strLe a b = true) := ⟨strLe_total⟩

instance : IsTrans String (fun a b => strLe a b = true) :=
  ⟨fun _ _ _ h1 h2 => strLe_trans h1 h2⟩

/-- A filesystem node: a file with its byte content, or a directory. -/
inductive Node where
  | file (content : String)
  | dirNode
deriving DecidableEq, Repr

/-- An absolute path, as its list of name segments. -/
abbrev FsPath := List String

/-- A filesystem state: the set (as a list) of all existing entries. -/
abbrev FS := List (FsPath × Node)

/-- `pfx p q` holds when path `p` is an initial segment of path `q`
(so `q` is `p` itself or lies below `p`). -/
def pfx (p q : FsPath) : Bool := q.take p.length == p

/-- `Path.name` in `pathlib`: the final path segment (empty for the root). -/
def pathName (p : FsPath) : String := (p.getLast?).getD ""

/-- The string rendering of a path, used by Python for printing and for
sorting `Path` objects. -/
def pathKey (p : FsPath) : String := String.intercalate "/" p

/-- `Path.exists()`: some entry has exactly this path. -/
def pathExists (fs : FS) (p : FsPath) : Bool := fs.any (fun e => e.1 == p)

/-- `Path.is_dir()`: the path exists and is a directory. -/
def isDir (fs : FS) (p : FsPath) : Bool := fs.any (fun e => e == (p, Node.dirNode))

/-- `Path.is_file()`: the path exists and is a regular file. -/
def isFile (fs : FS) (p : FsPath) : Bool :=
  fs.any (fun e => e.1 == p && (match e.2 with | Node.file _ => true | Node.dirNode => false))

/-- The names of the direct children of `root`, in filesystem-entry order
(`Path.iterdir` before sorting). -/
def childNames (fs : FS) (root : FsPath) : List String :=
  fs.filterMap (fun e =>
    if e.1.take root.length = root ∧ e.1.length = root.length + 1 then e.1.getLast? else none)

/-- Python's `sorted` on strings (paths that are siblings compare by name). -/
def sortStrings (l : List String) : List String :=
  List.insertionSort (fun a b => strLe a b = true) l

/-- Python's `sorted` on `Path` objects: lexicographic on the rendered string. -/
def sortPaths (l : List FsPath) : List FsPath :=
  List.insertionSort (fun a b => strLe (pathKey a) (pathKey b) = true) l

instance : IsTotal FsPath (fun a b => strLe (pathKey a) (pathKey b) = true) :=
  ⟨fun a b => strLe_total (pathKey a) (pathKey b)⟩

instance : IsTrans FsPath (fun a b => strLe (pathKey a) (pathKey b) = true) :=
  ⟨fun _ _ _ h1 h2 => strLe_trans h1 h2⟩

/-- `list_skill_dirs(root, recursive)` from the source: in recursive mode,
every entry named `SKILL.md` strictly below `root` (sorted by full path)
contributes its parent directory, unless the parent's path relative to
`root` contains a segment beginning with a dot; in non-recursive mode, the
direct children of `root` (sorted by name) whose name does not begin with
a dot, that are directories, and that directly contain a `SKILL.md` file. -/
def list_skill_dirs (fs : FS) (root : FsPath) (recursive : Bool) : List FsPath :=
  if recursive then
    let files := sortPaths (fs.filterMap (fun e =>
      if pfx root e.1 ∧ e.1 ≠ root ∧ pathName e.1 = "SKILL.md" then some e.1 else none))
    files.filterMap (fun q =>
      let d := q.dropLast
      if (d.drop root.length).any (fun part => startsDot part) then none else some d)
  else
    (sortStrings (childNames fs root)).filterMap (fun n =>
      if startsDot n then none
      else if isDir fs (root ++ [n]) ∧ isFile fs (root ++ [n, "SKILL.md"]) then
        some (root ++ [n])
      else none)

/-- A console message, tagged with its stream. -/
inductive Msg where
  | out (s : String)
  | err (s : String)
deriving DecidableEq, Repr

/-- The interactive prompt built by `resolve_conflict`. -/
def promptFor (dest_dir : FsPath) : String :=
  "Conflict: " ++ pathName dest_dir ++ " exists at " ++ pathKey dest_dir ++
    ". Choose [o]verwrite, [s]kip, or [a]bort: "

/-- The `while True` prompting loop of `resolve_conflict` under policy
`ask` in non-preview mode.  The remaining standard-input lines drive the
loop; an empty list means end-of-input (`EOFError`).  Returns the
decision, the printed messages, and the unconsumed input. -/
def askLoop (prompt : String) : List String → String × List Msg × List String
  | [] =>
    ("abort",
      [Msg.out prompt,
       Msg.err "No interactive input available. Re-run with --conflict overwrite|skip|abort."],
      [])
  | s :: rest =>
    let r := pyLower (pyStrip s)
    if r ∈ ["o", "overwrite", "y", "yes"] then ("overwrite", [Msg.out prompt], rest)
    else if r ∈ ["s", "skip", "", "n", "no"] then ("skip", [Msg.out prompt], rest)
    else if r ∈ ["a", "abort", "q", "quit"] then ("abort", [Msg.out prompt], rest)
    else
      let t := askLoop prompt rest
      (t.1, Msg.out prompt :: Msg.out "Please choose \x27o\x27, \x27s\x27, or \x27a\x27." :: t.2.1,
        t.2.2)

/-- `resolve_conflict(dest_dir, policy, dry_run)` from the source, with the
standard-input stream made explicit. -/
def resolve_conflict (dest_dir : FsPath) (policy : String) (dry_run : Bool)
    (stdin : List String) : String × List Msg × List String :=
  if policy ≠ "ask" then (policy, [], stdin)
  else if dry_run then
    ("skip",
      [Msg.out ("DRY RUN: conflict for " ++ pathName dest_dir ++ "; defaulting to skip. " ++
        "Re-run with --conflict overwrite|skip|abort to preview a policy.")],
      stdin)
  else askLoop (promptFor dest_dir) stdin

/-- `shutil.rmtree(p)`: remove every entry at or below `p`. -/
def rmtree (fs : FS) (p : FsPath) : FS := fs.filter (fun e => ! pfx p e.1)

/-- `shutil.copytree(src, dst)` with `dst` not existing: every entry at or
below `src` is duplicated at the corresponding path below `dst`. -/
def copytree (fs : FS) (src dst : FsPath) : FS :=
  fs ++ fs.filterMap (fun e =>
    if pfx src e.1 then some (dst ++ e.1.drop src.length, e.2) else none)

/-- `Path.mkdir(parents=True, exist_ok=True)`: create every missing
ancestor of `p` (including `p` itself) as a directory. -/
def mkdirp (fs : FS) (p : FsPath) : FS :=
  fs ++ (List.range p.length).filterMap (fun i =>
    if pathExists fs (p.take (i + 1)) then none else some (p.take (i + 1), Node.dirNode))

/-- The outcome of one `copy_skill` call: the returned action (`none` when
the call raised `RuntimeError("Aborted on conflict.")`), the new
filesystem, the unconsumed input, and the printed messages. -/
structure CopyResult where
  action : Option String
  fs : FS
  stdin : List String
  msgs : List Msg
deriving DecidableEq, Repr

/-- `copy_skill(src_dir, dest_root, conflict_policy, dry_run)` from the
source. -/
def copy_skill (fs : FS) (src_dir : FsPath) (dest_root : FsPath) (policy : String)
    (dry_run : Bool) (stdin : List String) : CopyResult :=
  let dest_dir := dest_root ++ [pathName src_dir]
  if pathExists fs dest_dir then
    let t := resolve_conflict dest_dir policy dry_run stdin
    let decision := t.1
    if decision = "skip" then ⟨some "skip", fs, t.2.2, t.2.1⟩
    else if decision = "abort" then ⟨none, fs, t.2.2, t.2.1⟩
    else
      let action := if decision = "overwrite" then "overwrite" else "copy"
      let fs1 := if decision = "overwrite" ∧ dry_run = false then rmtree fs dest_dir else fs
      if dry_run then ⟨some action, fs1, t.2.2, t.2.1⟩
      else ⟨some action, copytree fs1 src_dir dest_dir, t.2.2, t.2.1⟩
  else
    if dry_run then ⟨some "copy", fs, stdin, []⟩
    else ⟨some "copy", copytree fs src_dir dest_dir, stdin, []⟩

/-- The outcome of `prune_dest`. -/
structure PruneResult where
  pruned : Nat
  fs : FS
  msgs : List Msg
deriving DecidableEq, Repr

/-- One iteration of the `prune_dest` loop body. -/
def pruneStep (source_names : List String) (dry_run : Bool) (acc : PruneResult)
    (d : FsPath) : PruneResult :=
  if pathName d ∈ source_names then acc
  else if dry_run then
    ⟨acc.pruned + 1, acc.fs,
      acc.msgs ++ [Msg.out ("PRUNE: " ++ pathName d ++ " -> " ++ pathKey d)]⟩
  else ⟨acc.pruned + 1, rmtree acc.fs d, acc.msgs⟩

/-- `prune_dest(source_names, dest_root, dry_run)` from the source: the
destination's top-level skills are listed once, and each one whose name is
not among the surviving source names is removed (or, in dry-run mode,
reported). -/
def prune_dest (source_names : List String) (fs0 : FS) (dest_root : FsPath)
    (dry_run : Bool) : PruneResult :=
  (list_skill_dirs fs0 dest_root false).foldl (pruneStep source_names dry_run) ⟨0, fs0, []⟩

/-- The subtree of the filesystem at `p`: every entry at or below `p`,
with its path taken relative to `p`. -/
def subtreeAt (fs : FS) (p : FsPath) : FS :=
  fs.filterMap (fun e => if pfx p e.1 = true then some (e.1.drop p.length, e.2) else none)

/-! ### The `main` driver -/

/-- The parsed command-line configuration (`argparse` guarantees
`mode ∈ \x7bcopy, sync\x7d` and `conflict ∈ \x7bask, skip, overwrite, abort\x7d`). -/
structure Config where
  source : FsPath
  extra_source : List FsPath
  recursive : Bool
  include_official_plugins : Bool
  dest : FsPath
  mode : String
  conflict : String
  dry_run : Bool
  prune : Bool
deriving DecidableEq, Repr

/-- The fixed marketplace plugin roots (`~` expanded to the user's home). -/
def OFFICIAL_PLUGIN_ROOTS : List FsPath :=
  [["home", ".claude", "plugins", "marketplaces", "claude-plugins-official", "plugins"],
   ["home", ".claude", "plugins", "marketplaces", "claude-plugins-official",
    "external_plugins"]]

/-- The ordered source-root list: the primary source, the extra sources
(each with the global recursion flag), then, if requested, the official
plugin roots (always recursive). -/
def sourcesOf (cfg : Config) : List (FsPath × Bool) :=
  (cfg.source, cfg.recursive) :: (cfg.extra_source.map (fun p => (p, cfg.recursive)) ++
    (if cfg.include_official_plugins then
      OFFICIAL_PLUGIN_ROOTS.map (fun p => (p, true))
    else []))

/-- Source-root validation: a root must exist and be a directory; invalid
roots are dropped with a warning on standard error. -/
def validSourcesMsgs (fs : FS) : List (FsPath × Bool) → List (FsPath × Bool) × List Msg
  | [] => ([], [])
  | pr :: rest =>
    let t := validSourcesMsgs fs rest
    if pathExists fs pr.1 = false then
      (t.1, Msg.err ("Skipping missing source: " ++ pathKey pr.1) :: t.2)
    else if isDir fs pr.1 = false then
      (t.1, Msg.err ("Skipping non-directory source: " ++ pathKey pr.1) :: t.2)
    else (pr :: t.1, t.2)

/-- The valid source roots of a run. -/
def validSources (cfg : Config) (fs : FS) : List (FsPath × Bool) :=
  (validSourcesMsgs fs (sourcesOf cfg)).1

/-- The concatenated skill list discovered across all valid sources. -/
def mainSkills (cfg : Config) (fs : FS) : List FsPath :=
  (validSources cfg fs).flatMap (fun pr => list_skill_dirs fs pr.1 pr.2)

/-- Destination creation: `mkdir(parents=True)` unless it exists or the run
is a preview. -/
def ensureDest (cfg : Config) (fs : FS) : FS × List Msg :=
  if pathExists fs cfg.dest = false then
    if cfg.dry_run then
      (fs, [Msg.out ("DRY RUN: would create destination " ++ pathKey cfg.dest)])
    else (mkdirp fs cfg.dest, [])
  else (fs, [])

/-- Python's rendering of a bool in an f-string. -/
def pyBool (b : Bool) : String := if b then "True" else "False"

/-- The informational header printed before the copy loop. -/
def headerMsgs (cfg : Config) (fs : FS) (skills : List FsPath) : List Msg :=
  [Msg.out "Sources:"] ++
    (validSources cfg fs).map (fun pr =>
      Msg.out ("- " ++ pathKey pr.1 ++ " (" ++
        (if pr.2 then "recursive" else "direct") ++ ")")) ++
    [Msg.out ("Destination: " ++ pathKey cfg.dest),
     Msg.out ("Mode: " ++ cfg.mode ++ " | Conflict: " ++ cfg.conflict ++
       " | Dry run: " ++ pyBool cfg.dry_run),
     Msg.out ("Skills found: " ++ toString skills.length)]

/-- The running state of the copy loop: filesystem, unread input, printed
messages, and the three action tallies. -/
structure LoopState where
  fs : FS
  stdin : List String
  msgs : List Msg
  ncopy : Nat
  nover : Nat
  nskip : Nat
deriving DecidableEq, Repr

/-- The `for skill_dir in skills` loop of `main`, stopping at the first
abort (`RuntimeError`).  The returned flag records whether the run
aborted. -/
def copyLoop (dest_root : FsPath) (policy : String) (dry_run : Bool) :
    List FsPath → LoopState → Bool × LoopState
  | [], st => (false, st)
  | s :: rest, st =>
    let r := copy_skill st.fs s dest_root policy dry_run st.stdin
    match r.action with
    | none =>
      (true, ⟨r.fs, r.stdin, st.msgs ++ r.msgs ++ [Msg.err "Aborted on conflict."],
        st.ncopy, st.nover, st.nskip⟩)
    | some a =>
      copyLoop dest_root policy dry_run rest
        ⟨r.fs, r.stdin,
          st.msgs ++ r.msgs ++
            [Msg.out (pyUpper a ++ ": " ++ pathName s ++ " -> " ++
              pathKey (dest_root ++ [pathName s]))],
          st.ncopy + (if a = "copy" then 1 else 0),
          st.nover + (if a = "overwrite" then 1 else 0),
          st.nskip + (if a = "skip" then 1 else 0)⟩

/-- The outcome of one whole invocation: exit code, final filesystem,
console messages, and the summary tallies. -/
structure RunResult where
  exitCode : Nat
  fs : FS
  msgs : List Msg
  ncopy : Nat
  nover : Nat
  nskip : Nat
  npruned : Nat
deriving DecidableEq, Repr

/-- The initial state of the copy loop: the filesystem after destination
creation, the whole input stream, no messages, zero tallies. -/
def initLoop (cfg : Config) (fs : FS) (stdin : List String) : LoopState :=
  ⟨(ensureDest cfg fs).1, stdin, [], 0, 0, 0⟩

/-- The copy loop of one run, over the discovered skills. -/
def mainLoop (cfg : Config) (fs : FS) (stdin : List String) : Bool × LoopState :=
  copyLoop cfg.dest cfg.conflict cfg.dry_run (mainSkills cfg fs) (initLoop cfg fs stdin)

/-- The prune phase of a successful run: pruned count, filesystem, messages. -/
def prunePhase (cfg : Config) (fs : FS) (stdin : List String) : Nat × FS × List Msg :=
  if cfg.mode = "sync" ∧ cfg.prune = true then
    if pathExists (mainLoop cfg fs stdin).2.fs cfg.dest = false then
      ((0 : Nat), (mainLoop cfg fs stdin).2.fs,
        [Msg.out "DRY RUN: destination does not exist, nothing to prune."])
    else
      ((prune_dest ((mainSkills cfg fs).map pathName) (mainLoop cfg fs stdin).2.fs
          cfg.dest cfg.dry_run).pruned,
        (prune_dest ((mainSkills cfg fs).map pathName) (mainLoop cfg fs stdin).2.fs
          cfg.dest cfg.dry_run).fs,
        (prune_dest ((mainSkills cfg fs).map pathName) (mainLoop cfg fs stdin).2.fs
          cfg.dest cfg.dry_run).msgs)
  else ((0 : Nat), (mainLoop cfg fs stdin).2.fs, ([] : List Msg))

/-- The part of `main()` past the validation checks: destination creation,
header, copy loop, prune phase, summary. -/
def mainRun (cfg : Config) (fs : FS) (stdin : List String) : RunResult :=
  if (mainLoop cfg fs stdin).1 = true then
    ⟨2, (mainLoop cfg fs stdin).2.fs,
      (validSourcesMsgs fs (sourcesOf cfg)).2 ++ (ensureDest cfg fs).2 ++
        headerMsgs cfg fs (mainSkills cfg fs) ++ (mainLoop cfg fs stdin).2.msgs,
      (mainLoop cfg fs stdin).2.ncopy, (mainLoop cfg fs stdin).2.nover,
      (mainLoop cfg fs stdin).2.nskip, 0⟩
  else
    ⟨0, (prunePhase cfg fs stdin).2.1,
      (validSourcesMsgs fs (sourcesOf cfg)).2 ++ (ensureDest cfg fs).2 ++
        headerMsgs cfg fs (mainSkills cfg fs) ++ (mainLoop cfg fs stdin).2.msgs ++
        (prunePhase cfg fs stdin).2.2 ++
        [Msg.out ("Summary: copied " ++ toString (mainLoop cfg fs stdin).2.ncopy ++
          ", overwritten " ++ toString (mainLoop cfg fs stdin).2.nover ++
          ", skipped " ++ toString (mainLoop cfg fs stdin).2.nskip ++
          (if cfg.prune then ", pruned " ++ toString (prunePhase cfg fs stdin).1 else ""))],
      (mainLoop cfg fs stdin).2.ncopy, (mainLoop cfg fs stdin).2.nover,
      (mainLoop cfg fs stdin).2.nskip, (prunePhase cfg fs stdin).1⟩

/-- `main()` from the source, with the filesystem and standard input made
explicit. -/
def main (cfg : Config) (fs : FS) (stdin : List String) : RunResult :=
  if cfg.prune = true ∧ cfg.mode ≠ "sync" then
    ⟨1, fs, [Msg.err "--prune is only valid with --mode sync."], 0, 0, 0, 0⟩
  else if validSources cfg fs = [] then
    ⟨1, fs, (validSourcesMsgs fs (sourcesOf cfg)).2 ++ [Msg.err "No valid sources found."],
      0, 0, 0, 0⟩
  else if mainSkills cfg fs = [] then
    ⟨0, fs, (validSourcesMsgs fs (sourcesOf cfg)).2 ++
      [Msg.out "No skills found in the provided sources."], 0, 0, 0, 0⟩
  else mainRun cfg fs stdin

/-! ### Concrete runs witnessing claims C2 and C6 -/

def c6cfg : Config := ⟨["s"], [], false, false, ["d"], "copy", "skip", false, false⟩

def c6fs : FS :=
  [(["s"], Node.dirNode), (["s", "a"], Node.dirNode),
   (["s", "a", "SKILL.md"], Node.file "A")]

def c2cfg : Config := ⟨["s"], [], false, false, ["d"], "sync", "overwrite", false, true⟩

def c2fs : FS :=
  [(["s"], Node.dirNode), (["s", "a"], Node.dirNode),
   (["s", "a", "SKILL.md"], Node.file "A"), (["d"], Node.dirNode),
   (["d", "c"], Node.dirNode), (["d", "c", "SKILL.md"], Node.file "C")]

/-! ### Path lemmas -/

theorem pfx_iff {p q : FsPath} : pfx p q = true ↔ q.take p.length = p := by
  simp [pfx]

theorem pfx_refl (p : FsPath) : pfx p p = true := by
  simp [pfx]

theorem pfx_append (p r : FsPath) : pfx p (p ++ r) = true := by
  simp [pfx, List.take_left]

theorem length_le_of_pfx {p q : FsPath} (h : pfx p q = true) : p.length ≤ q.length := by
  have h' := pfx_iff.1 h
  have := congrArg List.length h'
  simp [List.length_take] at this
  omega

theorem eq_append_drop_of_pfx {p q : FsPath} (h : pfx p q = true) :
    q = p ++ q.drop p.length := by
  conv_lhs => rw [← List.take_append_drop p.length q]
  rw [pfx_iff.1 h]

theorem pfx_append_right {p q : FsPath} (r : FsPath) (h : pfx p q = true) :
    pfx p (q ++ r) = true := by
  have hle := length_le_of_pfx h
  rw [pfx_iff] at h ⊢
  rw [List.take_append_of_le_length hle, h]

theorem pfx_trans {p q r : FsPath} (h1 : pfx p q = true) (h2 : pfx q r = true) :
    pfx p r = true := by
  have hle := length_le_of_pfx h1
  rw [pfx_iff] at h1 h2 ⊢
  calc List.take p.length r = List.take p.length (List.take q.length r) := by
        rw [List.take_take, min_eq_left hle]
    _ = List.take p.length q := by rw [h2]
    _ = p := h1

theorem pfx_comparable {a b q : FsPath} (ha : pfx a q = true) (hb : pfx b q = true) :
    pfx a b = true ∨ pfx b a = true := by
  rcases le_total a.length b.length with hle | hle
  · left
    rw [pfx_iff] at ha hb ⊢
    calc List.take a.length b = List.take a.length (List.take b.length q) := by rw [hb]
      _ = List.take a.length q := by rw [List.take_take, min_eq_left hle]
      _ = a := ha
  · right
    rw [pfx_iff] at ha hb ⊢
    calc List.take b.length a = List.take b.length (List.take a.length q) := by rw [ha]
      _ = List.take b.length q := by rw [List.take_take, min_eq_left hle]
      _ = b := hb

theorem pfx_append_cancel {r a b : FsPath} :
    pfx (r ++ a) (r ++ b) = true ↔ pfx a b = true := by
  rw [pfx_iff, pfx_iff, List.length_append, List.take_append, List.append_cancel_left_eq]

theorem pfx_child {r : FsPath} {m n : String} (h : pfx (r ++ [m]) (r ++ [n]) = true) :
    m = n := by
  have h' := pfx_append_cancel.1 h
  rw [pfx_iff] at h'
  simpa using h'.symm

theorem pfx_take (p : FsPath) (k : Nat) : pfx (p.take k) p = true := by
  rw [pfx_iff, List.length_take, ← List.take_take, List.take_length]

theorem path_child_iff {q root : FsPath} {n : String} :
    q = root ++ [n] ↔
      q.take root.length = root ∧ q.length = root.length + 1 ∧ q.getLast? = some n := by
  constructor
  · rintro rfl
    refine ⟨List.take_left _ _, by simp, List.getLast?_concat _⟩
  · rintro ⟨h1, h2, h3⟩
    have hq : q = root ++ q.drop root.length := by
      conv_lhs => rw [← List.take_append_drop root.length q]
      rw [h1]
    have hlen : (q.drop root.length).length = 1 := by
      rw [List.length_drop, h2]
      omega
    obtain ⟨x, hx⟩ := List.length_eq_one.1 hlen
    rw [hx] at hq
    rw [hq, List.getLast?_concat] at h3
    rw [hq, Option.some_inj.1 h3]

theorem pathName_append (root : FsPath) (n : String) : pathName (root ++ [n]) = n := by
  simp [pathName, List.getLast?_concat]

/-! ### Filesystem predicate lemmas -/

theorem pathExists_iff {fs : FS} {p : FsPath} :
    pathExists fs p = true ↔ ∃ node, (p, node) ∈ fs := by
  simp only [pathExists, List.any_eq_true, beq_iff_eq]
  constructor
  · rintro ⟨⟨q, node⟩, hmem, rfl⟩
    exact ⟨node, hmem⟩
  · rintro ⟨node, hmem⟩
    exact ⟨(p, node), hmem, rfl⟩

theorem isDir_iff {fs : FS} {p : FsPath} :
    isDir fs p = true ↔ (p, Node.dirNode) ∈ fs := by
  simp only [isDir, List.any_eq_true, beq_iff_eq]
  constructor
  · rintro ⟨e, hmem, rfl⟩
    exact hmem
  · intro hmem
    exact ⟨(p, Node.dirNode), hmem, rfl⟩

theorem isFile_iff {fs : FS} {p : FsPath} :
    isFile fs p = true ↔ ∃ c, (p, Node.file c) ∈ fs := by
  simp only [isFile, List.any_eq_true, Bool.and_eq_true, beq_iff_eq]
  constructor
  · rintro ⟨⟨q, node⟩, hmem, rfl, hnode⟩
    cases node with
    | file c => exact ⟨c, hmem⟩
    | dirNode => simp at hnode
  · rintro ⟨c, hmem⟩
    exact ⟨(p, Node.file c), hmem, rfl, rfl⟩

theorem mem_childNames {fs : FS} {root : FsPath} {n : String} :
    n ∈ childNames fs root ↔ ∃ node, (root ++ [n], node) ∈ fs := by
  simp only [childNames, List.mem_filterMap]
  constructor
  · rintro ⟨⟨q, node⟩, hmem, hcond⟩
    by_cases h : q.take root.length = root ∧ q.length = root.length + 1
    · rw [if_pos h] at hcond
      have : q = root ++ [n] := path_child_iff.2 ⟨h.1, h.2, hcond⟩
      exact ⟨node, this ▸ hmem⟩
    · rw [if_neg h] at hcond
      exact absurd hcond (by simp)
  · rintro ⟨node, hmem⟩
    refine ⟨(root ++ [n], node), hmem, ?_⟩
    rw [if_pos ⟨List.take_left _ _, by simp⟩]
    exact List.getLast?_concat _

/-! ### Scanner characterization -/

theorem mem_sortStrings {l : List String} {n : String} :
    n ∈ sortStrings l ↔ n ∈ l :=
  (List.perm_insertionSort _ _).mem_iff

theorem mem_sortPaths {l : List FsPath} {q : FsPath} :
    q ∈ sortPaths l ↔ q ∈ l :=
  (List.perm_insertionSort _ _).mem_iff

theorem mem_list_skill_dirs_nonrec {fs : FS} {root : FsPath} {d : FsPath} :
    d ∈ list_skill_dirs fs root false ↔
      ∃ n, d = root ++ [n] ∧ startsDot n = false ∧
        isDir fs (root ++ [n]) = true ∧ isFile fs (root ++ [n, "SKILL.md"]) = true := by
  simp only [list_skill_dirs, Bool.false_eq_true, if_false, List.mem_filterMap]
  constructor
  · rintro ⟨n, hmem, hcond⟩
    by_cases hhid : startsDot n
    · rw [if_pos hhid] at hcond
      exact absurd hcond (by simp)
    · rw [if_neg hhid] at hcond
      by_cases hsk : isDir fs (root ++ [n]) = true ∧ isFile fs (root ++ [n, "SKILL.md"]) = true
      · rw [if_pos hsk] at hcond
        exact ⟨n, (Option.some_inj.1 hcond).symm, by simpa using hhid, hsk.1, hsk.2⟩
      · rw [if_neg hsk] at hcond
        exact absurd hcond (by simp)
  · rintro ⟨n, rfl, hhid, hdir, hfile⟩
    refine ⟨n, ?_, ?_⟩
    · rw [mem_sortStrings, mem_childNames]
      exact ⟨Node.dirNode, isDir_iff.1 hdir⟩
    · rw [if_neg (by simp [hhid]), if_pos ⟨hdir, hfile⟩]

theorem markerPath_cond_iff {root d : FsPath} :
    (pfx root (d ++ ["SKILL.md"]) = true ∧ d ++ ["SKILL.md"] ≠ root ∧
        pathName (d ++ ["SKILL.md"]) = "SKILL.md") ↔ pfx root d = true := by
  constructor
  · rintro ⟨h1, h2, _⟩
    have hle := length_le_of_pfx h1
    simp only [List.length_append, List.length_cons, List.length_nil] at hle
    rcases Nat.lt_or_ge root.length (d.length + 1) with hlt | hge
    · have hle' : root.length ≤ d.length := by omega
      rw [pfx_iff] at h1 ⊢
      rw [List.take_append_of_le_length hle'] at h1
      exact h1
    · exfalso
      have : root.length = d.length + 1 := by omega
      rw [pfx_iff] at h1
      apply h2
      have := congrArg List.length h1
      rw [List.length_take] at this
      have htk : List.take root.length (d ++ ["SKILL.md"]) = d ++ ["SKILL.md"] := by
        apply List.take_of_length_le
        simp
        omega
      rw [htk] at h1
      exact h1
  · intro h
    refine ⟨pfx_append_right _ h, ?_, pathName_append _ _⟩
    intro heq
    have hle := length_le_of_pfx h
    have := congrArg List.length heq
    simp at this
    omega

theorem mem_list_skill_dirs_rec {fs : FS} {root : FsPath} {d : FsPath} :
    d ∈ list_skill_dirs fs root true ↔
      pfx root d = true ∧ (∃ node, (d ++ ["SKILL.md"], node) ∈ fs) ∧
        (d.drop root.length).any (fun part => startsDot part) = false := by
  simp only [list_skill_dirs, if_true, List.mem_filterMap, mem_sortPaths]
  constructor
  · rintro ⟨q, hq, hcond⟩
    obtain ⟨⟨qq, node⟩, hqmem, hqcond⟩ := hq
    by_cases hc : pfx root qq ∧ qq ≠ root ∧ pathName qq = "SKILL.md"
    · rw [if_pos hc] at hqcond
      have he : qq = q := Option.some_inj.1 hqcond
      rw [he] at hc hqmem
      have hqne : q ≠ [] := by
        intro h0
        rw [h0] at hc
        simp [pathName] at hc
      have hqeq : q = q.dropLast ++ ["SKILL.md"] := by
        have hlast : q.getLast hqne = "SKILL.md" := by
          have := hc.2.2
          rw [pathName, List.getLast?_eq_getLast q hqne] at this
          simpa using this
        conv_lhs => rw [← List.dropLast_append_getLast hqne]
        rw [hlast]
      by_cases hhid : (q.dropLast.drop root.length).any (fun part => startsDot part) = true
      · rw [if_pos hhid] at hcond
        exact absurd hcond (by simp)
      · rw [if_neg hhid] at hcond
        have hd : q.dropLast = d := Option.some_inj.1 hcond
        subst hd
        have hpfx : pfx root q.dropLast = true := by
          have hcc := hc
          rw [hqeq] at hcc
          exact markerPath_cond_iff.1 ⟨hcc.1, hcc.2.1, hcc.2.2⟩
        refine ⟨hpfx, ⟨node, ?_⟩, by simpa using hhid⟩
        rw [← hqeq]
        exact hqmem
    · rw [if_neg hc] at hqcond
      exact absurd hqcond (by simp)
  · rintro ⟨hpfx, ⟨node, hmem⟩, hhid⟩
    refine ⟨d ++ ["SKILL.md"], ?_, ?_⟩
    · refine ⟨(d ++ ["SKILL.md"], node), hmem, ?_⟩
      rw [if_pos (markerPath_cond_iff.2 hpfx)]
    · rw [List.dropLast_concat]
      rw [if_neg (by simp [hhid])]

/-! ### Scanner ordering -/

theorem pairwise_filterMap_mem {α β : Type} {R : α → α → Prop} {S : β → β → Prop}
    {P : α → Prop} (f : α → Option β) {l : List α}
    (hP : ∀ a ∈ l, P a)
    (H : ∀ a a', P a → P a' → R a a' → ∀ b, f a = some b → ∀ b', f a' = some b' → S b b')
    (hp : l.Pairwise R) : (l.filterMap f).Pairwise S := by
  induction l with
  | nil => simp
  | cons a l ih =>
    rw [List.filterMap_cons]
    obtain ⟨hhead, htail⟩ := List.pairwise_cons.1 hp
    have hPa := hP a (by simp)
    have hPl : ∀ x ∈ l, P x := fun x hx => hP x (List.mem_cons_of_mem _ hx)
    cases hfa : f a with
    | none => exact ih hPl htail
    | some b =>
      refine List.pairwise_cons.2 ⟨?_, ih hPl htail⟩
      intro b' hb'
      obtain ⟨a', ha'mem, hfa'⟩ := List.mem_filterMap.1 hb'
      exact H a a' hPa (hPl a' ha'mem) (hhead a' ha'mem) b hfa b' hfa'

theorem sorted_sortStrings (l : List String) :
    (sortStrings l).Pairwise (fun a b => strLe a b = true) :=
  List.sorted_insertionSort _ l

theorem sorted_sortPaths (l : List FsPath) :
    (sortPaths l).Pairwise (fun a b => strLe (pathKey a) (pathKey b) = true) :=
  List.sorted_insertionSort _ l

theorem list_skill_dirs_nonrec_sorted (fs : FS) (root : FsPath) :
    ((list_skill_dirs fs root false).map pathName).Pairwise
      (fun a b => strLe a b = true) := by
  rw [List.pairwise_map]
  simp only [list_skill_dirs, Bool.false_eq_true, if_false]
  refine pairwise_filterMap_mem (P := fun _ => True) _ (fun _ _ => trivial) ?_
    (sorted_sortStrings _)
  intro n n' _ _ hr d hd d' hd'
  have hn : d = root ++ [n] := by
    by_cases h1 : startsDot n
    · rw [if_pos h1] at hd
      simp at hd
    · rw [if_neg h1] at hd
      by_cases h2 : isDir fs (root ++ [n]) = true ∧ isFile fs (root ++ [n, "SKILL.md"]) = true
      · rw [if_pos h2] at hd
        exact (Option.some_inj.1 hd).symm
      · rw [if_neg h2] at hd
        simp at hd
  have hn' : d' = root ++ [n'] := by
    by_cases h1 : startsDot n'
    · rw [if_pos h1] at hd'
      simp at hd'
    · rw [if_neg h1] at hd'
      by_cases h2 : isDir fs (root ++ [n']) = true ∧ isFile fs (root ++ [n', "SKILL.md"]) = true
      · rw [if_pos h2] at hd'
        exact (Option.some_inj.1 hd').symm
      · rw [if_neg h2] at hd'
        simp at hd'
  rw [hn, hn', pathName_append, pathName_append]
  exact hr

theorem list_skill_dirs_rec_sorted (fs : FS) (root : FsPath) :
    (list_skill_dirs fs root true).Pairwise
      (fun d1 d2 =>
        strLe (pathKey (d1 ++ ["SKILL.md"])) (pathKey (d2 ++ ["SKILL.md"])) = true) := by
  simp only [list_skill_dirs, if_true]
  refine pairwise_filterMap_mem (P := fun q => pathName q = "SKILL.md") _ ?_ ?_
    (sorted_sortPaths _)
  · intro q hq
    obtain ⟨e, _, hcond⟩ := List.mem_filterMap.1 (mem_sortPaths.1 hq)
    by_cases hc : pfx root e.1 = true ∧ e.1 ≠ root ∧ pathName e.1 = "SKILL.md"
    · rw [if_pos hc] at hcond
      rw [← Option.some_inj.1 hcond]
      exact hc.2.2
    · rw [if_neg hc] at hcond
      simp at hcond
  · intro q q' hPq hPq' hr d hd d' hd'
    have hqd : q.dropLast = d := by
      by_cases hh : (q.dropLast.drop root.length).any (fun part => startsDot part) = true
      · rw [if_pos hh] at hd
        simp at hd
      · rw [if_neg hh] at hd
        exact Option.some_inj.1 hd
    have hqd' : q'.dropLast = d' := by
      by_cases hh : (q'.dropLast.drop root.length).any (fun part => startsDot part) = true
      · rw [if_pos hh] at hd'
        simp at hd'
      · rw [if_neg hh] at hd'
        exact Option.some_inj.1 hd'
    have hqne : q ≠ [] := by
      intro h0
      rw [h0] at hPq
      simp [pathName] at hPq
    have hqne' : q' ≠ [] := by
      intro h0
      rw [h0] at hPq'
      simp [pathName] at hPq'
    have hqeq : q = d ++ ["SKILL.md"] := by
      rw [← hqd]
      conv_lhs => rw [← List.dropLast_append_getLast hqne]
      congr 1
      have := hPq
      rw [pathName, List.getLast?_eq_getLast q hqne] at this
      simpa using this
    have hqeq' : q' = d' ++ ["SKILL.md"] := by
      rw [← hqd']
      conv_lhs => rw [← List.dropLast_append_getLast hqne']
      congr 1
      have := hPq'
      rw [pathName, List.getLast?_eq_getLast q' hqne'] at this
      simpa using this
    rw [← hqeq, ← hqeq']
    exact hr

/-! ### Claims C4 and C5: scanner correctness -/

/-- Claim C4: for every root, the non-recursive scan returns a directory iff
it is a direct child of the root whose name does not start with a dot and
which directly contains a file named `SKILL.md`; the result is ordered
alphabetically (lexicographically by code point) by name. -/
theorem claim_C4_nonrecursive_scan (fs : FS) (root : FsPath) :
    (∀ d, d ∈ list_skill_dirs fs root false ↔
      ∃ n, d = root ++ [n] ∧ startsDot n = false ∧ isDir fs (root ++ [n]) = true ∧
        isFile fs (root ++ [n, "SKILL.md"]) = true) ∧
    ((list_skill_dirs fs root false).map pathName).Pairwise
      (fun a b => strLe a b = true) :=
  ⟨fun _ => mem_list_skill_dirs_nonrec, list_skill_dirs_nonrec_sorted fs root⟩

/-- Claim C5 counterexample: the recursive scan does not require the marker
to be a regular file.  In the filesystem where `r/a/SKILL.md` is a
directory, the scan returns `r/a`, although `r/a` does not directly contain
a marker *file*, refuting the claim's only-if direction. -/
theorem claim_C5_counterexample :
    ["r", "a"] ∈ list_skill_dirs
        [(["r"], Node.dirNode), (["r", "a"], Node.dirNode),
          (["r", "a", "SKILL.md"], Node.dirNode)] ["r"] true ∧
      isFile [(["r"], Node.dirNode), (["r", "a"], Node.dirNode),
          (["r", "a", "SKILL.md"], Node.dirNode)] ["r", "a", "SKILL.md"] = false := by
  constructor
  · decide
  · decide

/-- Claim C5 (amended): for every root, the recursive scan returns a
directory iff it is at or below the root, directly contains an entry (file
or directory) named `SKILL.md`, and its path relative to the root contains
no segment beginning with a dot; results follow the sorted order of the
full marker-entry paths. -/
theorem claim_C5_recursive_scan (fs : FS) (root : FsPath) :
    (∀ d, d ∈ list_skill_dirs fs root true ↔
      pfx root d = true ∧ (∃ node, (d ++ ["SKILL.md"], node) ∈ fs) ∧
        (d.drop root.length).any (fun part => startsDot part) = false) ∧
    (list_skill_dirs fs root true).Pairwise
      (fun d1 d2 =>
        strLe (pathKey (d1 ++ ["SKILL.md"])) (pathKey (d2 ++ ["SKILL.md"])) = true) :=
  ⟨fun _ => mem_list_skill_dirs_rec, list_skill_dirs_rec_sorted fs root⟩

/-! ### Claim C8: the interactive conflict resolver -/

theorem askLoop_cons_overwrite {prompt s : String} {rest : List String}
    (h : pyLower (pyStrip s) ∈ ["o", "overwrite", "y", "yes"]) :
    askLoop prompt (s :: rest) = ("overwrite", [Msg.out prompt], rest) := by
  simp only [askLoop]
  rw [if_pos h]

theorem askLoop_cons_skip {prompt s : String} {rest : List String}
    (h : pyLower (pyStrip s) ∈ ["s", "skip", "", "n", "no"]) :
    askLoop prompt (s :: rest) = ("skip", [Msg.out prompt], rest) := by
  have hno : pyLower (pyStrip s) ∉ ["o", "overwrite", "y", "yes"] := by
    have hall : ∀ x ∈ (["s", "skip", "", "n", "no"] : List String),
        x ∉ (["o", "overwrite", "y", "yes"] : List String) := by decide
    exact hall _ h
  simp only [askLoop]
  rw [if_neg hno, if_pos h]

theorem askLoop_cons_abort {prompt s : String} {rest : List String}
    (h : pyLower (pyStrip s) ∈ ["a", "abort", "q", "quit"]) :
    askLoop prompt (s :: rest) = ("abort", [Msg.out prompt], rest) := by
  have hno : pyLower (pyStrip s) ∉ ["o", "overwrite", "y", "yes"] := by
    have hall : ∀ x ∈ (["a", "abort", "q", "quit"] : List String),
        x ∉ (["o", "overwrite", "y", "yes"] : List String) := by decide
    exact hall _ h
  have hns : pyLower (pyStrip s) ∉ ["s", "skip", "", "n", "no"] := by
    have hall : ∀ x ∈ (["a", "abort", "q", "quit"] : List String),
        x ∉ (["s", "skip", "", "n", "no"] : List String) := by decide
    exact hall _ h
  simp only [askLoop]
  rw [if_neg hno, if_neg hns, if_pos h]

theorem askLoop_cons_other {prompt s : String} {rest : List String}
    (h1 : pyLower (pyStrip s) ∉ ["o", "overwrite", "y", "yes"])
    (h2 : pyLower (pyStrip s) ∉ ["s", "skip", "", "n", "no"])
    (h3 : pyLower (pyStrip s) ∉ ["a", "abort", "q", "quit"]) :
    askLoop prompt (s :: rest) =
      ((askLoop prompt rest).1,
        Msg.out prompt :: Msg.out "Please choose \x27o\x27, \x27s\x27, or \x27a\x27." ::
          (askLoop prompt rest).2.1,
        (askLoop prompt rest).2.2) := by
  simp only [askLoop]
  rw [if_neg h1, if_neg h2, if_neg h3]

/-- Claim C8: under policy `ask` in non-preview mode the resolver consumes
input lines until a recognized one: it returns overwrite for (stripped,
lowercased) o/overwrite/y/yes, skip for s/skip/n/no or empty input, abort
for a/abort/q/quit, re-prompts with a usage hint on any other input, and at
end-of-input prints guidance to stderr and returns abort. -/
theorem claim_C8_ask_resolver (dest_dir : FsPath) (s : String) (rest : List String) :
    (pyLower (pyStrip s) ∈ ["o", "overwrite", "y", "yes"] →
      resolve_conflict dest_dir "ask" false (s :: rest) =
        ("overwrite", [Msg.out (promptFor dest_dir)], rest)) ∧
    (pyLower (pyStrip s) ∈ ["s", "skip", "", "n", "no"] →
      resolve_conflict dest_dir "ask" false (s :: rest) =
        ("skip", [Msg.out (promptFor dest_dir)], rest)) ∧
    (pyLower (pyStrip s) ∈ ["a", "abort", "q", "quit"] →
      resolve_conflict dest_dir "ask" false (s :: rest) =
        ("abort", [Msg.out (promptFor dest_dir)], rest)) ∧
    (pyLower (pyStrip s) ∉ ["o", "overwrite", "y", "yes"] →
      pyLower (pyStrip s) ∉ ["s", "skip", "", "n", "no"] →
      pyLower (pyStrip s) ∉ ["a", "abort", "q", "quit"] →
      resolve_conflict dest_dir "ask" false (s :: rest) =
        ((askLoop (promptFor dest_dir) rest).1,
          Msg.out (promptFor dest_dir) ::
            Msg.out "Please choose \x27o\x27, \x27s\x27, or \x27a\x27." ::
            (askLoop (promptFor dest_dir) rest).2.1,
          (askLoop (promptFor dest_dir) rest).2.2)) ∧
    (resolve_conflict dest_dir "ask" false [] =
      ("abort",
        [Msg.out (promptFor dest_dir),
         Msg.err "No interactive input available. Re-run with --conflict overwrite|skip|abort."],
        [])) := by
  have hre : ∀ inp, resolve_conflict dest_dir "ask" false inp =
      askLoop (promptFor dest_dir) inp := by
    intro inp
    unfold resolve_conflict
    rw [if_neg (by decide), if_neg (by decide)]
  refine ⟨?_, ?_, ?_, ?_, ?_⟩
  · intro h
    rw [hre, askLoop_cons_overwrite h]
  · intro h
    rw [hre, askLoop_cons_skip h]
  · intro h
    rw [hre, askLoop_cons_abort h]
  · intro h1 h2 h3
    rw [hre, askLoop_cons_other h1 h2 h3]
  · rw [hre]
    rfl

/-- Witness for claim C8 at a concrete input: a padded upper-case "YES"
resolves to overwrite. -/
theorem claim_C8_witness :
    resolve_conflict ["d", "x"] "ask" false [" YES "] =
      ("overwrite", [Msg.out (promptFor ["d", "x"])], []) :=
  (claim_C8_ask_resolver ["d", "x"] " YES " []).1 (by decide)

/-! ### `copy_skill` compute lemmas -/

theorem copy_skill_overwrite_eq (fs : FS) (src_dir dest_root : FsPath)
    (stdin : List String)
    (hex : pathExists fs (dest_root ++ [pathName src_dir]) = true) :
    copy_skill fs src_dir dest_root "overwrite" false stdin =
      ⟨some "overwrite",
        copytree (rmtree fs (dest_root ++ [pathName src_dir])) src_dir
          (dest_root ++ [pathName src_dir]),
        stdin, []⟩ := by
  simp only [copy_skill]
  rw [if_pos hex]
  rfl

theorem copy_skill_skip_eq (fs : FS) (src_dir dest_root : FsPath)
    (dry : Bool) (stdin : List String)
    (hex : pathExists fs (dest_root ++ [pathName src_dir]) = true) :
    copy_skill fs src_dir dest_root "skip" dry stdin = ⟨some "skip", fs, stdin, []⟩ := by
  simp only [copy_skill]
  rw [if_pos hex]
  rfl

theorem copy_skill_abort_eq (fs : FS) (src_dir dest_root : FsPath)
    (dry : Bool) (stdin : List String)
    (hex : pathExists fs (dest_root ++ [pathName src_dir]) = true) :
    copy_skill fs src_dir dest_root "abort" dry stdin = ⟨none, fs, stdin, []⟩ := by
  simp only [copy_skill]
  rw [if_pos hex]
  rfl

theorem copy_skill_new_eq (fs : FS) (src_dir dest_root : FsPath)
    (policy : String) (stdin : List String)
    (hex : pathExists fs (dest_root ++ [pathName src_dir]) = false) :
    copy_skill fs src_dir dest_root policy false stdin =
      ⟨some "copy", copytree fs src_dir (dest_root ++ [pathName src_dir]), stdin, []⟩ := by
  simp only [copy_skill]
  rw [if_neg (by simp [hex])]
  rfl

/-! ### Claim C7: overwrite correctness -/

theorem subtreeAt_append (a b : FS) (p : FsPath) :
    subtreeAt (a ++ b) p = subtreeAt a p ++ subtreeAt b p :=
  List.filterMap_append _ _ _

theorem filterMap_filter_none {α β : Type} (g : α → Bool) (f : α → Option β)
    (h : ∀ a, g a = true → f a = none) :
    ∀ l : List α, (l.filter g).filterMap f = []
  | [] => rfl
  | a :: l => by
    rw [List.filter_cons]
    by_cases hg : g a = true
    · rw [if_pos hg, List.filterMap_cons, h a hg]
      exact filterMap_filter_none g f h l
    · rw [if_neg hg]
      exact filterMap_filter_none g f h l

theorem filterMap_filter_of_isSome {α β : Type} (g : α → Bool) (f : α → Option β)
    (h : ∀ a, (f a).isSome = true → g a = true) :
    ∀ l : List α, (l.filter g).filterMap f = l.filterMap f
  | [] => rfl
  | a :: l => by
    rw [List.filter_cons, List.filterMap_cons]
    cases hfa : f a with
    | none =>
      by_cases hg : g a = true
      · rw [if_pos hg, List.filterMap_cons, hfa]
        exact filterMap_filter_of_isSome g f h l
      · rw [if_neg hg]
        exact filterMap_filter_of_isSome g f h l
    | some b =>
      have hg : g a = true := h a (by simp [hfa])
      rw [if_pos hg, List.filterMap_cons, hfa]
      rw [filterMap_filter_of_isSome g f h l]

theorem subtreeAt_rmtree_self (fs : FS) (p : FsPath) :
    subtreeAt (rmtree fs p) p = [] := by
  unfold subtreeAt rmtree
  apply filterMap_filter_none
  intro e he
  rw [if_neg]
  simp only [Bool.not_eq_true'] at he
  simp [he]

theorem subtreeAt_reroot (g : FS) (src dd : FsPath) :
    subtreeAt (g.filterMap (fun e =>
        if pfx src e.1 = true then some (dd ++ e.1.drop src.length, e.2) else none)) dd =
      g.filterMap (fun e =>
        if pfx src e.1 = true then some (e.1.drop src.length, e.2) else none) := by
  unfold subtreeAt
  rw [List.filterMap_filterMap]
  apply List.filterMap_congr
  intro e _
  by_cases hp : pfx src e.1 = true
  · rw [if_pos hp, if_pos hp]
    show (if pfx dd (dd ++ e.1.drop src.length) = true then
        some ((dd ++ e.1.drop src.length).drop dd.length, e.2) else none) =
      some (e.1.drop src.length, e.2)
    rw [if_pos (pfx_append dd _), List.drop_left]
  · rw [if_neg hp, if_neg hp]
    rfl

/-- Claim C7: with `conflict=overwrite` in non-preview mode, when the
destination already contains an entry with the skill's name (and the
source and destination subtrees are disjoint), `copy_skill` reports the
action `overwrite`, removes the old destination subtree entirely and then
recursively copies the source, so the destination subtree becomes
byte-identical to the source skill with no leftover entries. -/
theorem claim_C7_overwrite (fs : FS) (src_dir dest_root : FsPath) (stdin : List String)
    (hex : pathExists fs (dest_root ++ [pathName src_dir]) = true)
    (hd : pfx (dest_root ++ [pathName src_dir]) src_dir = false)
    (hs : pfx src_dir (dest_root ++ [pathName src_dir]) = false) :
    (copy_skill fs src_dir dest_root "overwrite" false stdin).action = some "overwrite" ∧
    subtreeAt (copy_skill fs src_dir dest_root "overwrite" false stdin).fs
        (dest_root ++ [pathName src_dir]) = subtreeAt fs src_dir := by
  rw [copy_skill_overwrite_eq fs src_dir dest_root stdin hex]
  refine ⟨rfl, ?_⟩
  unfold copytree
  rw [subtreeAt_append, subtreeAt_rmtree_self, List.nil_append, subtreeAt_reroot]
  unfold rmtree subtreeAt
  apply filterMap_filter_of_isSome
  intro e he
  by_cases hp : pfx src_dir e.1 = true
  · simp only [Bool.not_eq_true']
    by_contra hne
    have hdd : pfx (dest_root ++ [pathName src_dir]) e.1 = true := by
      revert hne
      cases pfx (dest_root ++ [pathName src_dir]) e.1 with
      | false => intro hne; exact absurd rfl hne
      | true => intro _; rfl
    rcases pfx_comparable hdd hp with hcc | hcc
    · rw [hcc] at hd
      exact absurd hd (by simp)
    · rw [hcc] at hs
      exact absurd hs (by simp)
  · rw [if_neg hp] at he
    simp at he

/-- Witness for claim C7 at a concrete input: an existing destination skill
`a` with different content (and a leftover file) is replaced entirely. -/
theorem claim_C7_witness :
    (copy_skill
        [(["s"], Node.dirNode), (["s", "a"], Node.dirNode),
         (["s", "a", "SKILL.md"], Node.file "new"), (["d"], Node.dirNode),
         (["d", "a"], Node.dirNode), (["d", "a", "SKILL.md"], Node.file "old"),
         (["d", "a", "junk"], Node.file "j")]
        ["s", "a"] ["d"] "overwrite" false []).action = some "overwrite" ∧
    subtreeAt (copy_skill
        [(["s"], Node.dirNode), (["s", "a"], Node.dirNode),
         (["s", "a", "SKILL.md"], Node.file "new"), (["d"], Node.dirNode),
         (["d", "a"], Node.dirNode), (["d", "a", "SKILL.md"], Node.file "old"),
         (["d", "a", "junk"], Node.file "j")]
        ["s", "a"] ["d"] "overwrite" false []).fs (["d"] ++ [pathName ["s", "a"]]) =
      subtreeAt
        [(["s"], Node.dirNode), (["s", "a"], Node.dirNode),
         (["s", "a", "SKILL.md"], Node.file "new"), (["d"], Node.dirNode),
         (["d", "a"], Node.dirNode), (["d", "a", "SKILL.md"], Node.file "old"),
         (["d", "a", "junk"], Node.file "j")]
        ["s", "a"] :=
  claim_C7_overwrite _ ["s", "a"] ["d"] [] (by decide) (by decide) (by decide)

/-! ### Claim C10: pruning only removes marker-bearing top-level entries -/

theorem pruneFold_fs_dry (names : List String) :
    ∀ (ds : List FsPath) (acc : PruneResult),
      (ds.foldl (pruneStep names true) acc).fs = acc.fs
  | [], _ => rfl
  | d :: ds, acc => by
    rw [List.foldl_cons]
    rw [pruneFold_fs_dry names ds (pruneStep names true acc d)]
    unfold pruneStep
    by_cases h : pathName d ∈ names
    · rw [if_pos h]
    · rw [if_neg h, if_pos rfl]

theorem pruneFold_fs (names : List String) :
    ∀ (ds : List FsPath) (acc : PruneResult),
      (ds.foldl (pruneStep names false) acc).fs =
        acc.fs.filter (fun e =>
          ds.all (fun d => decide (pathName d ∈ names) || ! pfx d e.1))
  | [], acc => by
    simp
  | d :: ds, acc => by
    rw [List.foldl_cons, pruneFold_fs names ds (pruneStep names false acc d)]
    unfold pruneStep
    by_cases h : pathName d ∈ names
    · rw [if_pos h]
      apply List.filter_congr
      intro e _
      simp [h]
    · rw [if_neg h, if_neg (by simp)]
      show (rmtree acc.fs d).filter _ = _
      unfold rmtree
      rw [List.filter_filter]
      apply List.filter_congr
      intro e _
      simp [h, Bool.and_comm]

theorem prune_dest_fs_false (names : List String) (fs : FS) (dest_root : FsPath) :
    (prune_dest names fs dest_root false).fs =
      fs.filter (fun e =>
        (list_skill_dirs fs dest_root false).all
          (fun d => decide (pathName d ∈ names) || ! pfx d e.1)) :=
  pruneFold_fs names _ _

/-- Claim C10: the prune step only ever removes entries lying at or below a
top-level destination directory that is non-hidden, directly contains the
`SKILL.md` marker file, and whose name is not among the surviving source
names; any other destination entry (hidden directory, plain file, directory
lacking the marker) is never removed. -/
theorem claim_C10_prune_scope (names : List String) (fs : FS) (dest_root : FsPath)
    (dry : Bool) (e : FsPath × Node) (hmem : e ∈ fs)
    (hgone : e ∉ (prune_dest names fs dest_root dry).fs) :
    ∃ n, startsDot n = false ∧ isDir fs (dest_root ++ [n]) = true ∧
      isFile fs (dest_root ++ [n, "SKILL.md"]) = true ∧ n ∉ names ∧
      pfx (dest_root ++ [n]) e.1 = true := by
  cases dry with
  | true =>
    exfalso
    apply hgone
    unfold prune_dest
    rw [pruneFold_fs_dry names _ _]
    exact hmem
  | false =>
    rw [prune_dest_fs_false] at hgone
    have hnotall : ¬ ((list_skill_dirs fs dest_root false).all
        (fun d => decide (pathName d ∈ names) || ! pfx d e.1) = true) := by
      intro hall
      exact hgone (List.mem_filter.2 ⟨hmem, hall⟩)
    rw [List.all_eq_true] at hnotall
    push_neg at hnotall
    obtain ⟨d, hd, hdfail⟩ := hnotall
    obtain ⟨n, rfl, hhid, hdir, hfile⟩ := mem_list_skill_dirs_nonrec.1 hd
    refine ⟨n, hhid, hdir, hfile, ?_, ?_⟩
    · intro hn
      apply hdfail
      rw [pathName_append]
      simp [hn]
    · revert hdfail
      rw [pathName_append]
      cases hpf : pfx (dest_root ++ [n]) e.1 with
      | false => intro hdfail; exact absurd (by simp [hpf]) hdfail
      | true => intro _; rfl

/-- Witness for claim C10 at a concrete input: pruning a destination holding
a surviving skill `a`, a stale skill `b` and a stray file removes only the
stale skill's entries; applied to the removed marker file of `b`. -/
theorem claim_C10_witness :
    ∃ n, startsDot n = false ∧
      isDir [(["d"], Node.dirNode), (["d", "a"], Node.dirNode),
        (["d", "a", "SKILL.md"], Node.file "x"), (["d", "b"], Node.dirNode),
        (["d", "b", "SKILL.md"], Node.file "y"), (["d", "stray"], Node.file "s")]
        (["d"] ++ [n]) = true ∧
      isFile [(["d"], Node.dirNode), (["d", "a"], Node.dirNode),
        (["d", "a", "SKILL.md"], Node.file "x"), (["d", "b"], Node.dirNode),
        (["d", "b", "SKILL.md"], Node.file "y"), (["d", "stray"], Node.file "s")]
        (["d"] ++ [n, "SKILL.md"]) = true ∧ n ∉ ["a"] ∧
      pfx (["d"] ++ [n]) (["d", "b", "SKILL.md"] : FsPath) = true :=
  claim_C10_prune_scope ["a"]
    [(["d"], Node.dirNode), (["d", "a"], Node.dirNode),
      (["d", "a", "SKILL.md"], Node.file "x"), (["d", "b"], Node.dirNode),
      (["d", "b", "SKILL.md"], Node.file "y"), (["d", "stray"], Node.file "s")]
    ["d"] false (["d", "b", "SKILL.md"], Node.file "y") (by decide) (by decide)

/-! ### Claim C1: preview purity -/

theorem copy_skill_dry_fs (fs : FS) (s d : FsPath) (policy : String)
    (stdin : List String) : (copy_skill fs s d policy true stdin).fs = fs := by
  simp only [copy_skill]
  by_cases hex : pathExists fs (d ++ [pathName s]) = true
  · rw [if_pos hex]
    by_cases h1 : (resolve_conflict (d ++ [pathName s]) policy true stdin).1 = "skip"
    · rw [if_pos h1]
    · rw [if_neg h1]
      by_cases h2 : (resolve_conflict (d ++ [pathName s]) policy true stdin).1 = "abort"
      · rw [if_pos h2]
      · rw [if_neg h2]
        rw [if_neg (by simp :
          ¬((resolve_conflict (d ++ [pathName s]) policy true stdin).1 = "overwrite" ∧
            true = false))]
        rw [if_pos trivial]
  · rw [if_neg hex]
    rw [if_pos trivial]

theorem copyLoop_dry_fs (d : FsPath) (policy : String) :
    ∀ (skills : List FsPath) (st : LoopState),
      ((copyLoop d policy true skills st).2).fs = st.fs
  | [], _ => rfl
  | s :: rest, st => by
    simp only [copyLoop]
    cases hact : (copy_skill st.fs s d policy true st.stdin).action with
    | none =>
      simp only [hact]
      exact copy_skill_dry_fs st.fs s d policy st.stdin
    | some a =>
      simp only [hact]
      rw [copyLoop_dry_fs d policy rest _]
      exact copy_skill_dry_fs st.fs s d policy st.stdin

theorem prune_dest_fs_dry (names : List String) (fs : FS) (dest : FsPath) :
    (prune_dest names fs dest true).fs = fs :=
  pruneFold_fs_dry names _ _

theorem ensureDest_dry_fs (cfg : Config) (fs : FS) (hdry : cfg.dry_run = true) :
    (ensureDest cfg fs).1 = fs := by
  unfold ensureDest
  by_cases hx : pathExists fs cfg.dest = false
  · rw [if_pos hx, if_pos hdry]
  · rw [if_neg hx]

theorem mainLoop_dry_fs (cfg : Config) (fs : FS) (stdin : List String)
    (hdry : cfg.dry_run = true) : (mainLoop cfg fs stdin).2.fs = fs := by
  unfold mainLoop
  rw [hdry, copyLoop_dry_fs]
  show (ensureDest cfg fs).1 = fs
  exact ensureDest_dry_fs cfg fs hdry

theorem prunePhase_dry_fs (cfg : Config) (fs : FS) (stdin : List String)
    (hdry : cfg.dry_run = true) : (prunePhase cfg fs stdin).2.1 = fs := by
  unfold prunePhase
  by_cases h1 : cfg.mode = "sync" ∧ cfg.prune = true
  · rw [if_pos h1]
    by_cases h2 : pathExists (mainLoop cfg fs stdin).2.fs cfg.dest = false
    · rw [if_pos h2]
      exact mainLoop_dry_fs cfg fs stdin hdry
    · rw [if_neg h2]
      show (prune_dest _ _ _ cfg.dry_run).fs = fs
      rw [hdry, prune_dest_fs_dry]
      exact mainLoop_dry_fs cfg fs stdin hdry
  · rw [if_neg h1]
    exact mainLoop_dry_fs cfg fs stdin hdry

theorem mainRun_dry_fs (cfg : Config) (fs : FS) (stdin : List String)
    (hdry : cfg.dry_run = true) : (mainRun cfg fs stdin).fs = fs := by
  unfold mainRun
  by_cases h : (mainLoop cfg fs stdin).1 = true
  · rw [if_pos h]
    exact mainLoop_dry_fs cfg fs stdin hdry
  · rw [if_neg h]
    exact prunePhase_dry_fs cfg fs stdin hdry

/-- Claim C1: in preview (dry-run) mode no run ever mutates the filesystem:
whatever the configuration, conflicts and pruning candidates, the final
filesystem equals the initial one — no copy, no removal, and no creation of
a missing destination directory. -/
theorem claim_C1_preview_pure (cfg : Config) (fs : FS) (stdin : List String)
    (hdry : cfg.dry_run = true) : (main cfg fs stdin).fs = fs := by
  unfold main
  by_cases h1 : cfg.prune = true ∧ cfg.mode ≠ "sync"
  · rw [if_pos h1]
  · rw [if_neg h1]
    by_cases h2 : validSources cfg fs = []
    · rw [if_pos h2]
    · rw [if_neg h2]
      by_cases h3 : mainSkills cfg fs = []
      · rw [if_pos h3]
      · rw [if_neg h3]
        exact mainRun_dry_fs cfg fs stdin hdry

/-- Witness for claim C1 at a concrete input: a dry sync-with-prune run over
a source skill, a conflicting destination skill and a stale destination
skill changes nothing. -/
theorem claim_C1_witness :
    (main ⟨["s"], [], false, false, ["d"], "sync", "ask", true, true⟩
        [(["s"], Node.dirNode), (["s", "a"], Node.dirNode),
         (["s", "a", "SKILL.md"], Node.file "A"), (["d"], Node.dirNode),
         (["d", "a"], Node.dirNode), (["d", "a", "SKILL.md"], Node.file "A2"),
         (["d", "b"], Node.dirNode), (["d", "b", "SKILL.md"], Node.file "B")] []).fs =
      [(["s"], Node.dirNode), (["s", "a"], Node.dirNode),
       (["s", "a", "SKILL.md"], Node.file "A"), (["d"], Node.dirNode),
       (["d", "a"], Node.dirNode), (["d", "a", "SKILL.md"], Node.file "A2"),
       (["d", "b"], Node.dirNode), (["d", "b", "SKILL.md"], Node.file "B")] :=
  claim_C1_preview_pure _ _ _ rfl

/-! ### Claims C3 and C9: abort propagation and exit codes -/

theorem copy_skill_abort_fs {fs : FS} {s d : FsPath} {policy : String} {dry : Bool}
    {stdin : List String}
    (h : (copy_skill fs s d policy dry stdin).action = none) :
    (copy_skill fs s d policy dry stdin).fs = fs := by
  revert h
  simp only [copy_skill]
  by_cases hex : pathExists fs (d ++ [pathName s]) = true
  · rw [if_pos hex]
    by_cases h1 : (resolve_conflict (d ++ [pathName s]) policy dry stdin).1 = "skip"
    · rw [if_pos h1]
      intro h
      exact absurd h (by simp)
    · rw [if_neg h1]
      by_cases h2 : (resolve_conflict (d ++ [pathName s]) policy dry stdin).1 = "abort"
      · rw [if_pos h2]
        intro _
        rfl
      · rw [if_neg h2]
        by_cases h3 : (resolve_conflict (d ++ [pathName s]) policy dry stdin).1 =
            "overwrite" ∧ dry = false
        · rw [if_pos h3]
          by_cases hd : dry = true
          · rw [if_pos hd]
            intro h
            exact absurd h (by simp)
          · rw [if_neg hd]
            intro h
            exact absurd h (by simp)
        · rw [if_neg h3]
          by_cases hd : dry = true
          · rw [if_pos hd]
            intro h
            exact absurd h (by simp)
          · rw [if_neg hd]
            intro h
            exact absurd h (by simp)
  · rw [if_neg hex]
    by_cases hd : dry = true
    · rw [if_pos hd]
      intro h
      exact absurd h (by simp)
    · rw [if_neg hd]
      intro h
      exact absurd h (by simp)

theorem copyLoop_append (d : FsPath) (policy : String) (dry : Bool) :
    ∀ (xs ys : List FsPath) (st : LoopState),
      copyLoop d policy dry (xs ++ ys) st =
        if (copyLoop d policy dry xs st).1 = true then copyLoop d policy dry xs st
        else copyLoop d policy dry ys (copyLoop d policy dry xs st).2
  | [], ys, st => by
    simp only [List.nil_append, copyLoop]
    rw [if_neg (by simp)]
  | x :: xs, ys, st => by
    simp only [List.cons_append, copyLoop]
    cases hact : (copy_skill st.fs x d policy dry st.stdin).action with
    | none =>
      simp only [hact]
      rw [if_pos trivial]
    | some a =>
      simp only [hact]
      exact copyLoop_append d policy dry xs ys _

/-- Claim C3: if the conflict resolver aborts at a skill in the processing
order (after an abort-free prefix), no later skill is copied — the run's
final filesystem is exactly the prefix state's, so copies already applied
remain in place with no rollback — and the process exits with code 2. -/
theorem claim_C3_abort_propagation (cfg : Config) (fs : FS) (stdin : List String)
    (pre post : List FsPath) (s : FsPath) (st1 : LoopState)
    (hguard : ¬(cfg.prune = true ∧ cfg.mode ≠ "sync"))
    (hvalid : validSources cfg fs ≠ [])
    (hsk : mainSkills cfg fs = pre ++ s :: post)
    (hpre : copyLoop cfg.dest cfg.conflict cfg.dry_run pre (initLoop cfg fs stdin) =
      (false, st1))
    (habort : (copy_skill st1.fs s cfg.dest cfg.conflict cfg.dry_run st1.stdin).action =
      none) :
    (main cfg fs stdin).exitCode = 2 ∧ (main cfg fs stdin).fs = st1.fs := by
  have hskne : mainSkills cfg fs ≠ [] := by
    rw [hsk]
    simp
  have h1 : (mainLoop cfg fs stdin).1 = true ∧ (mainLoop cfg fs stdin).2.fs = st1.fs := by
    unfold mainLoop
    rw [hsk, copyLoop_append, hpre]
    rw [if_neg (by simp)]
    show (copyLoop cfg.dest cfg.conflict cfg.dry_run (s :: post) st1).1 = true ∧
      (copyLoop cfg.dest cfg.conflict cfg.dry_run (s :: post) st1).2.fs = st1.fs
    simp only [copyLoop, habort]
    exact ⟨trivial, copy_skill_abort_fs habort⟩
  unfold main
  rw [if_neg hguard, if_neg hvalid, if_neg hskne]
  unfold mainRun
  rw [if_pos h1.1]
  exact ⟨rfl, h1.2⟩

/-- Witness for claim C3 at a concrete input: with policy abort, a conflict
on the first skill stops the run before the second skill, with exit code 2
and the filesystem exactly as it was at the abort point. -/
theorem claim_C3_witness :
    (main ⟨["s"], [], false, false, ["d"], "copy", "abort", false, false⟩
        [(["s"], Node.dirNode), (["s", "a"], Node.dirNode),
         (["s", "a", "SKILL.md"], Node.file "A"), (["s", "b"], Node.dirNode),
         (["s", "b", "SKILL.md"], Node.file "B"), (["d"], Node.dirNode),
         (["d", "a"], Node.dirNode)] []).exitCode = 2 ∧
    (main ⟨["s"], [], false, false, ["d"], "copy", "abort", false, false⟩
        [(["s"], Node.dirNode), (["s", "a"], Node.dirNode),
         (["s", "a", "SKILL.md"], Node.file "A"), (["s", "b"], Node.dirNode),
         (["s", "b", "SKILL.md"], Node.file "B"), (["d"], Node.dirNode),
         (["d", "a"], Node.dirNode)] []).fs =
      (initLoop ⟨["s"], [], false, false, ["d"], "copy", "abort", false, false⟩
        [(["s"], Node.dirNode), (["s", "a"], Node.dirNode),
         (["s", "a", "SKILL.md"], Node.file "A"), (["s", "b"], Node.dirNode),
         (["s", "b", "SKILL.md"], Node.file "B"), (["d"], Node.dirNode),
         (["d", "a"], Node.dirNode)] []).fs :=
  claim_C3_abort_propagation _ _ [] [] [["s", "b"]] ["s", "a"] _
    (by decide) (by decide) (by decide) rfl (by decide)

/-- Claim C9: the process exits 0 on success including the no-op case of no
skills found, 1 on usage errors (prune without sync mode, or zero valid
source roots), and 2 exactly when the copy loop aborts during conflict
resolution. -/
theorem claim_C9_exit_codes (cfg : Config) (fs : FS) (stdin : List String) :
    (cfg.prune = true ∧ cfg.mode ≠ "sync" → (main cfg fs stdin).exitCode = 1) ∧
    (¬(cfg.prune = true ∧ cfg.mode ≠ "sync") → validSources cfg fs = [] →
      (main cfg fs stdin).exitCode = 1) ∧
    (¬(cfg.prune = true ∧ cfg.mode ≠ "sync") → validSources cfg fs ≠ [] →
      mainSkills cfg fs = [] → (main cfg fs stdin).exitCode = 0) ∧
    (¬(cfg.prune = true ∧ cfg.mode ≠ "sync") → validSources cfg fs ≠ [] →
      mainSkills cfg fs ≠ [] → (mainLoop cfg fs stdin).1 = true →
      (main cfg fs stdin).exitCode = 2) ∧
    (¬(cfg.prune = true ∧ cfg.mode ≠ "sync") → validSources cfg fs ≠ [] →
      mainSkills cfg fs ≠ [] → (mainLoop cfg fs stdin).1 = false →
      (main cfg fs stdin).exitCode = 0) := by
  refine ⟨?_, ?_, ?_, ?_, ?_⟩
  · intro h
    unfold main
    rw [if_pos h]
  · intro hg hv
    unfold main
    rw [if_neg hg, if_pos hv]
  · intro hg hv hs
    unfold main
    rw [if_neg hg, if_neg hv, if_pos hs]
  · intro hg hv hs hl
    unfold main
    rw [if_neg hg, if_neg hv, if_neg hs]
    unfold mainRun
    rw [if_pos hl]
  · intro hg hv hs hl
    unfold main
    rw [if_neg hg, if_neg hv, if_neg hs]
    unfold mainRun
    rw [if_neg (by simp [hl])]

/-- Witness for claim C9 at a concrete input: requesting prune in copy mode
is a usage error with exit code 1. -/
theorem claim_C9_witness :
    (main ⟨["s"], [], false, false, ["d"], "copy", "ask", false, true⟩ [] []).exitCode
      = 1 :=
  (claim_C9_exit_codes ⟨["s"], [], false, false, ["d"], "copy", "ask", false, true⟩
    [] []).1 (by decide)

/-! ### Frame lemmas: appended entries unrelated to a root do not change
scans or checks -/

theorem pfx_nil (q : FsPath) : pfx [] q = true := by
  simp [pfx]

theorem pathExists_append_left {fs : FS} {p : FsPath} (ext : FS)
    (h : pathExists fs p = true) : pathExists (fs ++ ext) p = true := by
  unfold pathExists at h ⊢
  rw [List.any_append, h]
  rfl

theorem pathExists_append_unrelated (fs ext : FS) (p : FsPath)
    (h : ∀ e ∈ ext, e.1 ≠ p) : pathExists (fs ++ ext) p = pathExists fs p := by
  unfold pathExists
  rw [List.any_append]
  have hx : ext.any (fun e => e.1 == p) = false := by
    rw [List.any_eq_false]
    intro e he
    simpa using h e he
  rw [hx, Bool.or_false]

theorem isDir_append_unrelated (fs ext : FS) (p : FsPath)
    (h : ∀ e ∈ ext, e.1 ≠ p) : isDir (fs ++ ext) p = isDir fs p := by
  unfold isDir
  rw [List.any_append]
  have hx : ext.any (fun e => e == (p, Node.dirNode)) = false := by
    rw [List.any_eq_false]
    intro e he
    simp only [beq_iff_eq]
    intro hcon
    exact h e he (by rw [hcon])
  rw [hx, Bool.or_false]

theorem isFile_append_unrelated (fs ext : FS) (p : FsPath)
    (h : ∀ e ∈ ext, e.1 ≠ p) : isFile (fs ++ ext) p = isFile fs p := by
  unfold isFile
  rw [List.any_append]
  have hx : ext.any (fun e => e.1 == p &&
      (match e.2 with | Node.file _ => true | Node.dirNode => false)) = false := by
    rw [List.any_eq_false]
    intro e he
    simp [h e he]
  rw [hx, Bool.or_false]

theorem childNames_append_unrelated (fs ext : FS) (root : FsPath)
    (h : ∀ e ∈ ext, pfx root e.1 = false) :
    childNames (fs ++ ext) root = childNames fs root := by
  unfold childNames
  rw [List.filterMap_append]
  have hx : ext.filterMap (fun e =>
      if e.1.take root.length = root ∧ e.1.length = root.length + 1 then e.1.getLast?
      else none) = [] := by
    rw [List.filterMap_eq_nil_iff]
    intro e he
    rw [if_neg]
    rintro ⟨h1, _⟩
    rw [← pfx_iff] at h1
    rw [h e he] at h1
    exact absurd h1 (by simp)
  rw [hx, List.append_nil]

theorem not_eq_of_unrelated {root q : FsPath} {ext : FS}
    (h : ∀ e ∈ ext, pfx root e.1 = false) (hq : pfx root q = true) :
    ∀ e ∈ ext, e.1 ≠ q := by
  intro e he hcon
  rw [← hcon] at hq
  rw [h e he] at hq
  exact absurd hq (by simp)

theorem list_skill_dirs_append_unrelated (fs ext : FS) (root : FsPath) (r : Bool)
    (h : ∀ e ∈ ext, pfx root e.1 = false) :
    list_skill_dirs (fs ++ ext) root r = list_skill_dirs fs root r := by
  cases r with
  | false =>
    simp only [list_skill_dirs, Bool.false_eq_true, if_false]
    rw [childNames_append_unrelated fs ext root h]
    apply List.filterMap_congr
    intro n _
    have hd : isDir (fs ++ ext) (root ++ [n]) = isDir fs (root ++ [n]) :=
      isDir_append_unrelated fs ext _ (not_eq_of_unrelated h (pfx_append root [n]))
    have hf : isFile (fs ++ ext) (root ++ [n, "SKILL.md"]) =
        isFile fs (root ++ [n, "SKILL.md"]) :=
      isFile_append_unrelated fs ext _ (not_eq_of_unrelated h (pfx_append root _))
    rw [hd, hf]
  | true =>
    simp only [list_skill_dirs, if_true]
    rw [List.filterMap_append]
    have hx : ext.filterMap (fun e =>
        if pfx root e.1 = true ∧ e.1 ≠ root ∧ pathName e.1 = "SKILL.md" then some e.1
        else none) = [] := by
      rw [List.filterMap_eq_nil_iff]
      intro e he
      rw [if_neg]
      rintro ⟨h1, _⟩
      rw [h e he] at h1
      exact absurd h1 (by simp)
    rw [hx, List.append_nil]

theorem validSourcesMsgs_append_unrelated (fs ext : FS) :
    ∀ (srcs : List (FsPath × Bool)),
      (∀ pr ∈ srcs, ∀ e ∈ ext, e.1 ≠ pr.1) →
      validSourcesMsgs (fs ++ ext) srcs = validSourcesMsgs fs srcs
  | [], _ => rfl
  | pr :: rest, h => by
    simp only [validSourcesMsgs]
    rw [validSourcesMsgs_append_unrelated fs ext rest
      (fun q hq => h q (List.mem_cons_of_mem _ hq))]
    rw [pathExists_append_unrelated fs ext pr.1 (h pr (List.mem_cons_self _ _))]
    rw [isDir_append_unrelated fs ext pr.1 (h pr (List.mem_cons_self _ _))]

theorem validSourcesMsgs_subset (fs : FS) :
    ∀ (srcs : List (FsPath × Bool)) (pr : FsPath × Bool),
      pr ∈ (validSourcesMsgs fs srcs).1 → pr ∈ srcs
  | [], _, h => by simp [validSourcesMsgs] at h
  | q :: rest, pr, h => by
    simp only [validSourcesMsgs] at h
    by_cases h1 : pathExists fs q.1 = false
    · rw [if_pos h1] at h
      exact List.mem_cons_of_mem _ (validSourcesMsgs_subset fs rest pr h)
    · rw [if_neg h1] at h
      by_cases h2 : isDir fs q.1 = false
      · rw [if_pos h2] at h
        exact List.mem_cons_of_mem _ (validSourcesMsgs_subset fs rest pr h)
      · rw [if_neg h2] at h
        rcases List.mem_cons.1 h with h3 | h3
        · rw [h3]
          exact List.mem_cons_self _ _
        · exact List.mem_cons_of_mem _ (validSourcesMsgs_subset fs rest pr h3)

theorem flatMap_congr {α β : Type} (f g : α → List β) :
    ∀ (l : List α), (∀ a ∈ l, f a = g a) → l.flatMap f = l.flatMap g
  | [], _ => rfl
  | a :: l, h => by
    rw [List.flatMap_cons, List.flatMap_cons, h a (List.mem_cons_self _ _),
      flatMap_congr f g l (fun x hx => h x (List.mem_cons_of_mem _ hx))]

theorem mkdirp_ext (fs : FS) (p : FsPath) :
    ∃ ext, mkdirp fs p = fs ++ ext ∧ ∀ e ∈ ext, pfx e.1 p = true := by
  refine ⟨_, rfl, ?_⟩
  intro e he
  obtain ⟨i, _, hcond⟩ := List.mem_filterMap.1 he
  by_cases hx : pathExists fs (p.take (i + 1)) = true
  · rw [if_pos hx] at hcond
    exact absurd hcond (by simp)
  · rw [if_neg hx] at hcond
    have : e = (p.take (i + 1), Node.dirNode) := (Option.some_inj.1 hcond).symm
    rw [this]
    exact pfx_take p (i + 1)

theorem copytree_ext (fs : FS) (src dst : FsPath) :
    ∃ ext, copytree fs src dst = fs ++ ext ∧ ∀ e ∈ ext, pfx dst e.1 = true := by
  refine ⟨_, rfl, ?_⟩
  intro e he
  obtain ⟨x, _, hcond⟩ := List.mem_filterMap.1 he
  by_cases hp : pfx src x.1 = true
  · rw [if_pos hp] at hcond
    have : e = (dst ++ x.1.drop src.length, x.2) := (Option.some_inj.1 hcond).symm
    rw [this]
    exact pfx_append dst _
  · rw [if_neg hp] at hcond
    exact absurd hcond (by simp)

theorem mem_mkdirp_self (fs : FS) (p : FsPath) (hne : p ≠ [])
    (hx : pathExists fs p = false) : (p, Node.dirNode) ∈ mkdirp fs p := by
  unfold mkdirp
  apply List.mem_append_right
  apply List.mem_filterMap.2
  refine ⟨p.length - 1, ?_, ?_⟩
  · rw [List.mem_range]
    have : p.length ≠ 0 := by
      intro h0
      exact hne (List.eq_nil_of_length_eq_zero h0)
    omega
  · have hl : p.length - 1 + 1 = p.length := by
      have : p.length ≠ 0 := by
        intro h0
        exact hne (List.eq_nil_of_length_eq_zero h0)
      omega
    rw [hl, List.take_length, if_neg (by simp [hx])]

/-! ### The copy loop under the skip policy -/

theorem copyLoop_cons_some (dest : FsPath) (policy : String) (dry : Bool)
    (s : FsPath) (rest : List FsPath) (st : LoopState) (a : String)
    (h : (copy_skill st.fs s dest policy dry st.stdin).action = some a) :
    copyLoop dest policy dry (s :: rest) st =
      copyLoop dest policy dry rest
        ⟨(copy_skill st.fs s dest policy dry st.stdin).fs,
         (copy_skill st.fs s dest policy dry st.stdin).stdin,
         st.msgs ++ (copy_skill st.fs s dest policy dry st.stdin).msgs ++
           [Msg.out (pyUpper a ++ ": " ++ pathName s ++ " -> " ++
             pathKey (dest ++ [pathName s]))],
         st.ncopy + (if a = "copy" then 1 else 0),
         st.nover + (if a = "overwrite" then 1 else 0),
         st.nskip + (if a = "skip" then 1 else 0)⟩ := by
  simp only [copyLoop, h]

theorem mem_copytree_root {fs : FS} {src dst : FsPath} {node : Node}
    (h : (src, node) ∈ fs) : (dst, node) ∈ copytree fs src dst := by
  unfold copytree
  apply List.mem_append_right
  apply List.mem_filterMap.2
  refine ⟨(src, node), h, ?_⟩
  rw [if_pos (pfx_refl src)]
  simp

theorem copyLoop_skip_run (dest : FsPath) :
    ∀ (skills : List FsPath) (F : FS) (sin : List String) (m : List Msg) (c o k : Nat),
      (∀ s ∈ skills, ∃ node, (s, node) ∈ F) →
      (copyLoop dest "skip" false skills ⟨F, sin, m, c, o, k⟩).1 = false ∧
      (∃ ext, (copyLoop dest "skip" false skills ⟨F, sin, m, c, o, k⟩).2.fs = F ++ ext ∧
        ∀ e ∈ ext, pfx dest e.1 = true) ∧
      ∀ s ∈ skills,
        pathExists (copyLoop dest "skip" false skills ⟨F, sin, m, c, o, k⟩).2.fs
          (dest ++ [pathName s]) = true
  | [], F, sin, m, c, o, k, _ =>
    ⟨rfl, ⟨[], (List.append_nil F).symm, by simp⟩, by simp⟩
  | s :: rest, F, sin, m, c, o, k, hsrc => by
    have hsrc' : ∀ x ∈ rest, ∃ node, (x, node) ∈ F :=
      fun x hx => hsrc x (List.mem_cons_of_mem _ hx)
    by_cases hex : pathExists F (dest ++ [pathName s]) = true
    · have hskip := copy_skill_skip_eq F s dest false sin hex
      have hact : (copy_skill F s dest "skip" false sin).action = some "skip" := by
        rw [hskip]
      rw [copyLoop_cons_some dest "skip" false s rest ⟨F, sin, m, c, o, k⟩ "skip" hact]
      simp only [hskip]
      obtain ⟨ih1, ⟨ext, hext, hprop⟩, ih3⟩ :=
        copyLoop_skip_run dest rest F sin _ _ _ _ hsrc'
      refine ⟨ih1, ⟨ext, hext, hprop⟩, ?_⟩
      intro x hx
      rcases List.mem_cons.1 hx with rfl | hx'
      · rw [hext]
        exact pathExists_append_left ext hex
      · exact ih3 x hx'
    · have hnew := copy_skill_new_eq F s dest "skip" sin
        (by revert hex; cases pathExists F (dest ++ [pathName s]) <;> simp)
      have hact : (copy_skill F s dest "skip" false sin).action = some "copy" := by
        rw [hnew]
      rw [copyLoop_cons_some dest "skip" false s rest ⟨F, sin, m, c, o, k⟩ "copy" hact]
      simp only [hnew]
      obtain ⟨node, hnode⟩ := hsrc s (List.mem_cons_self _ _)
      obtain ⟨ext1, hc1, hc2⟩ := copytree_ext F s (dest ++ [pathName s])
      obtain ⟨ih1, ⟨ext2, hext2, hprop2⟩, ih3⟩ :=
        copyLoop_skip_run dest rest (copytree F s (dest ++ [pathName s])) sin _ _ _ _
          (fun x hx => (hsrc' x hx).imp (fun nd hnd => by
            rw [hc1]
            exact List.mem_append_left _ hnd))
      refine ⟨ih1, ⟨ext1 ++ ext2, ?_, ?_⟩, ?_⟩
      · rw [hext2, hc1, List.append_assoc]
      · intro e he
        rcases List.mem_append.1 he with he1 | he2
        · exact pfx_trans (pfx_append dest [pathName s]) (hc2 e he1)
        · exact hprop2 e he2
      · intro x hx
        rcases List.mem_cons.1 hx with rfl | hx'
        · rw [hext2]
          apply pathExists_append_left
          exact pathExists_iff.2 ⟨node, mem_copytree_root hnode⟩
        · exact ih3 x hx'

theorem copyLoop_allskip (dest : FsPath) :
    ∀ (skills : List FsPath) (F : FS) (sin : List String) (m : List Msg) (c o k : Nat),
      (∀ s ∈ skills, pathExists F (dest ++ [pathName s]) = true) →
      (copyLoop dest "skip" false skills ⟨F, sin, m, c, o, k⟩).1 = false ∧
      (copyLoop dest "skip" false skills ⟨F, sin, m, c, o, k⟩).2.fs = F ∧
      (copyLoop dest "skip" false skills ⟨F, sin, m, c, o, k⟩).2.ncopy = c ∧
      (copyLoop dest "skip" false skills ⟨F, sin, m, c, o, k⟩).2.nover = o ∧
      (copyLoop dest "skip" false skills ⟨F, sin, m, c, o, k⟩).2.nskip =
        k + skills.length
  | [], F, sin, m, c, o, k, _ => ⟨rfl, rfl, rfl, rfl, rfl⟩
  | s :: rest, F, sin, m, c, o, k, hex => by
    have hskip := copy_skill_skip_eq F s dest false sin (hex s (List.mem_cons_self _ _))
    have hact : (copy_skill F s dest "skip" false sin).action = some "skip" := by
      rw [hskip]
    rw [copyLoop_cons_some dest "skip" false s rest ⟨F, sin, m, c, o, k⟩ "skip" hact]
    simp only [hskip]
    obtain ⟨ih1, ih2, ih3, ih4, ih5⟩ := copyLoop_allskip dest rest F sin _ _ _ _
      (fun x hx => hex x (List.mem_cons_of_mem _ hx))
    refine ⟨ih1, ih2, ?_, ?_, ?_⟩
    · rw [ih3, if_neg (by decide)]
      rfl
    · rw [ih4, if_neg (by decide)]
      rfl
    · rw [ih5, if_pos trivial, List.length_cons]
      omega

/-! ### `main` branch lemmas -/

theorem main_eq_novalid (cfg : Config) (fs : FS) (stdin : List String)
    (hguard : ¬(cfg.prune = true ∧ cfg.mode ≠ "sync"))
    (hvalid : validSources cfg fs = []) :
    main cfg fs stdin = ⟨1, fs,
      (validSourcesMsgs fs (sourcesOf cfg)).2 ++ [Msg.err "No valid sources found."],
      0, 0, 0, 0⟩ := by
  unfold main
  rw [if_neg hguard, if_pos hvalid]

theorem main_eq_noskills (cfg : Config) (fs : FS) (stdin : List String)
    (hguard : ¬(cfg.prune = true ∧ cfg.mode ≠ "sync"))
    (hvalid : validSources cfg fs ≠ []) (hsk : mainSkills cfg fs = []) :
    main cfg fs stdin = ⟨0, fs,
      (validSourcesMsgs fs (sourcesOf cfg)).2 ++
        [Msg.out "No skills found in the provided sources."], 0, 0, 0, 0⟩ := by
  unfold main
  rw [if_neg hguard, if_neg hvalid, if_pos hsk]

theorem main_eq_run (cfg : Config) (fs : FS) (stdin : List String)
    (hguard : ¬(cfg.prune = true ∧ cfg.mode ≠ "sync"))
    (hvalid : validSources cfg fs ≠ []) (hsk : mainSkills cfg fs ≠ []) :
    main cfg fs stdin = mainRun cfg fs stdin := by
  unfold main
  rw [if_neg hguard, if_neg hvalid, if_neg hsk]

theorem mainRun_success_proj (cfg : Config) (fs : FS) (stdin : List String)
    (hab : (mainLoop cfg fs stdin).1 = false)
    (hnm : ¬(cfg.mode = "sync" ∧ cfg.prune = true)) :
    (mainRun cfg fs stdin).fs = (mainLoop cfg fs stdin).2.fs ∧
    (mainRun cfg fs stdin).exitCode = 0 ∧
    (mainRun cfg fs stdin).ncopy = (mainLoop cfg fs stdin).2.ncopy ∧
    (mainRun cfg fs stdin).nover = (mainLoop cfg fs stdin).2.nover ∧
    (mainRun cfg fs stdin).nskip = (mainLoop cfg fs stdin).2.nskip := by
  unfold mainRun
  rw [if_neg (by simp [hab])]
  unfold prunePhase
  rw [if_neg hnm]
  exact ⟨rfl, rfl, rfl, rfl, rfl⟩

/-! ### Claim C6: idempotence of copy mode with the skip policy -/

/-- Claim C6: running copy mode twice with `conflict=skip` against an
unchanged source (sources and destination in disjoint parts of the
filesystem, and each discovered skill directory present as an entry) leaves
the destination byte-identical after the second run, and the second run
records every processed skill as skipped (zero copies, zero overwrites). -/
theorem claim_C6_idempotent (cfg : Config) (fs : FS) (stdin stdin2 : List String)
    (hmode : cfg.mode = "copy") (hpol : cfg.conflict = "skip")
    (hdry : cfg.dry_run = false) (hprune : cfg.prune = false)
    (hsep : ∀ pr ∈ sourcesOf cfg, pfx cfg.dest pr.1 = false ∧ pfx pr.1 cfg.dest = false)
    (hsrcs : ∀ s ∈ mainSkills cfg fs, ∃ node, (s, node) ∈ fs) :
    (main cfg (main cfg fs stdin).fs stdin2).fs = (main cfg fs stdin).fs ∧
    (main cfg (main cfg fs stdin).fs stdin2).ncopy = 0 ∧
    (main cfg (main cfg fs stdin).fs stdin2).nover = 0 ∧
    (main cfg (main cfg fs stdin).fs stdin2).nskip =
      (mainSkills cfg (main cfg fs stdin).fs).length := by
  have hguard : ¬(cfg.prune = true ∧ cfg.mode ≠ "sync") := by
    rw [hprune]
    simp
  have hnm : ¬(cfg.mode = "sync" ∧ cfg.prune = true) := by
    rw [hmode]
    simp
  by_cases hvalid : validSources cfg fs = []
  · rw [main_eq_novalid cfg fs stdin hguard hvalid]
    show (main cfg fs stdin2).fs = fs ∧ (main cfg fs stdin2).ncopy = 0 ∧
      (main cfg fs stdin2).nover = 0 ∧
      (main cfg fs stdin2).nskip = (mainSkills cfg fs).length
    rw [main_eq_novalid cfg fs stdin2 hguard hvalid]
    refine ⟨rfl, rfl, rfl, ?_⟩
    show 0 = (mainSkills cfg fs).length
    unfold mainSkills
    rw [hvalid]
    rfl
  · by_cases hsk : mainSkills cfg fs = []
    · rw [main_eq_noskills cfg fs stdin hguard hvalid hsk]
      show (main cfg fs stdin2).fs = fs ∧ (main cfg fs stdin2).ncopy = 0 ∧
        (main cfg fs stdin2).nover = 0 ∧
        (main cfg fs stdin2).nskip = (mainSkills cfg fs).length
      rw [main_eq_noskills cfg fs stdin2 hguard hvalid hsk]
      refine ⟨rfl, rfl, rfl, ?_⟩
      rw [hsk]
      rfl
    · -- the run that actually copies
      have hdne : cfg.dest ≠ [] := by
        intro h0
        have hh := (hsep (cfg.source, cfg.recursive)
          (by unfold sourcesOf; exact List.mem_cons_self _ _)).1
        rw [h0, pfx_nil] at hh
        exact absurd hh (by simp)
      obtain ⟨mk, hmk, hmkp⟩ : ∃ mk, (ensureDest cfg fs).1 = fs ++ mk ∧
          ∀ e ∈ mk, pfx e.1 cfg.dest = true := by
        unfold ensureDest
        by_cases hx : pathExists fs cfg.dest = false
        · rw [if_pos hx, if_neg (by simp [hdry])]
          exact mkdirp_ext fs cfg.dest
        · rw [if_neg hx]
          exact ⟨[], (List.append_nil fs).symm, by simp⟩
      have hdest1 : pathExists (ensureDest cfg fs).1 cfg.dest = true := by
        unfold ensureDest
        by_cases hx : pathExists fs cfg.dest = false
        · rw [if_pos hx, if_neg (by simp [hdry])]
          exact pathExists_iff.2 ⟨Node.dirNode, mem_mkdirp_self fs cfg.dest hdne hx⟩
        · rw [if_neg hx]
          revert hx
          cases pathExists fs cfg.dest <;> simp
      have hsrc1 : ∀ s ∈ mainSkills cfg fs, ∃ node, (s, node) ∈ (ensureDest cfg fs).1 := by
        intro s hs
        obtain ⟨node, hnode⟩ := hsrcs s hs
        exact ⟨node, by rw [hmk]; exact List.mem_append_left _ hnode⟩
      obtain ⟨hab1, ⟨ext1, hext1, hextp1⟩, hexists1⟩ :=
        copyLoop_skip_run cfg.dest (mainSkills cfg fs) (ensureDest cfg fs).1 stdin
          [] 0 0 0 hsrc1
      have hml : mainLoop cfg fs stdin =
          copyLoop cfg.dest "skip" false (mainSkills cfg fs)
            ⟨(ensureDest cfg fs).1, stdin, [], 0, 0, 0⟩ := by
        unfold mainLoop initLoop
        rw [hpol, hdry]
      have habX : (mainLoop cfg fs stdin).1 = false := by
        rw [hml]
        exact hab1
      have hF2 : (mainLoop cfg fs stdin).2.fs = fs ++ (mk ++ ext1) := by
        rw [hml, hext1, hmk, List.append_assoc]
      have hR1 : (main cfg fs stdin).fs = fs ++ (mk ++ ext1) := by
        rw [main_eq_run cfg fs stdin hguard hvalid hsk]
        rw [(mainRun_success_proj cfg fs stdin habX hnm).1]
        exact hF2
      -- every appended entry is below the destination or an ancestor of it
      have hEXTrel : ∀ e ∈ mk ++ ext1,
          pfx cfg.dest e.1 = true ∨ pfx e.1 cfg.dest = true := by
        intro e he
        rcases List.mem_append.1 he with h1 | h1
        · exact Or.inr (hmkp e h1)
        · exact Or.inl (hextp1 e h1)
      have hur : ∀ pr ∈ sourcesOf cfg, ∀ e ∈ mk ++ ext1, pfx pr.1 e.1 = false := by
        intro pr hpr e he
        by_contra hcon
        have hpe : pfx pr.1 e.1 = true := by
          revert hcon
          cases pfx pr.1 e.1 <;> simp
        rcases hEXTrel e he with h1 | h1
        · rcases pfx_comparable hpe h1 with hc | hc
          · rw [(hsep pr hpr).2] at hc
            exact absurd hc (by simp)
          · rw [(hsep pr hpr).1] at hc
            exact absurd hc (by simp)
        · have := pfx_trans hpe h1
          rw [(hsep pr hpr).2] at this
          exact absurd this (by simp)
      have hne : ∀ pr ∈ sourcesOf cfg, ∀ e ∈ mk ++ ext1, e.1 ≠ pr.1 := by
        intro pr hpr e he hcon
        have := hur pr hpr e he
        rw [hcon, pfx_refl] at this
        exact absurd this (by simp)
      have hvmsgs : validSourcesMsgs (fs ++ (mk ++ ext1)) (sourcesOf cfg) =
          validSourcesMsgs fs (sourcesOf cfg) :=
        validSourcesMsgs_append_unrelated fs _ (sourcesOf cfg) hne
      have hvalid2 : validSources cfg (fs ++ (mk ++ ext1)) = validSources cfg fs := by
        unfold validSources
        rw [hvmsgs]
      have hskills2 : mainSkills cfg (fs ++ (mk ++ ext1)) = mainSkills cfg fs := by
        unfold mainSkills
        rw [hvalid2]
        apply flatMap_congr
        intro pr hpr
        exact list_skill_dirs_append_unrelated fs _ pr.1 pr.2
          (hur pr (validSourcesMsgs_subset fs (sourcesOf cfg) pr hpr))
      have hex2 : ∀ s ∈ mainSkills cfg fs,
          pathExists (fs ++ (mk ++ ext1)) (cfg.dest ++ [pathName s]) = true := by
        intro s hs
        have hh := hexists1 s hs
        rw [← hml, hF2] at hh
        exact hh
      have hex_dest2 : pathExists (fs ++ (mk ++ ext1)) cfg.dest = true := by
        rw [hmk] at hdest1
        rw [← List.append_assoc]
        exact pathExists_append_left ext1 hdest1
      have hed2 : (ensureDest cfg (fs ++ (mk ++ ext1))).1 = fs ++ (mk ++ ext1) := by
        unfold ensureDest
        rw [if_neg (by simp [hex_dest2])]
      obtain ⟨a1, a2, a3, a4, a5⟩ :=
        copyLoop_allskip cfg.dest (mainSkills cfg fs) (fs ++ (mk ++ ext1)) stdin2
          [] 0 0 0 hex2
      have hml2 : mainLoop cfg (fs ++ (mk ++ ext1)) stdin2 =
          copyLoop cfg.dest "skip" false (mainSkills cfg fs)
            ⟨fs ++ (mk ++ ext1), stdin2, [], 0, 0, 0⟩ := by
        unfold mainLoop initLoop
        rw [hpol, hdry, hskills2, hed2]
      have hab2 : (mainLoop cfg (fs ++ (mk ++ ext1)) stdin2).1 = false := by
        rw [hml2]
        exact a1
      have hvalid2' : validSources cfg (fs ++ (mk ++ ext1)) ≠ [] := by
        rw [hvalid2]
        exact hvalid
      have hsk2 : mainSkills cfg (fs ++ (mk ++ ext1)) ≠ [] := by
        rw [hskills2]
        exact hsk
      rw [hR1]
      rw [main_eq_run cfg (fs ++ (mk ++ ext1)) stdin2 hguard hvalid2' hsk2]
      obtain ⟨p1, p2, p3, p4, p5⟩ :=
        mainRun_success_proj cfg (fs ++ (mk ++ ext1)) stdin2 hab2 hnm
      refine ⟨?_, ?_, ?_, ?_⟩
      · rw [p1, hml2]
        exact a2
      · rw [p3, hml2]
        exact a3
      · rw [p4, hml2]
        exact a4
      · rw [p5, hml2, a5, hskills2]
        omega

/-! ### Decision values and `copy_skill` case analysis -/

theorem askLoop_decision (prompt : String) :
    ∀ inp : List String, (askLoop prompt inp).1 ∈ ["overwrite", "skip", "abort"]
  | [] => by simp [askLoop]
  | s :: rest => by
    simp only [askLoop]
    by_cases h1 : pyLower (pyStrip s) ∈ ["o", "overwrite", "y", "yes"]
    · rw [if_pos h1]
      simp
    · rw [if_neg h1]
      by_cases h2 : pyLower (pyStrip s) ∈ ["s", "skip", "", "n", "no"]
      · rw [if_pos h2]
        simp
      · rw [if_neg h2]
        by_cases h3 : pyLower (pyStrip s) ∈ ["a", "abort", "q", "quit"]
        · rw [if_pos h3]
          simp
        · rw [if_neg h3]
          exact askLoop_decision prompt rest

theorem resolve_decision (dd : FsPath) (policy : String) (stdin : List String)
    (hval : policy ∈ ["ask", "skip", "overwrite", "abort"]) :
    (resolve_conflict dd policy false stdin).1 ∈ ["overwrite", "skip", "abort"] := by
  rcases List.mem_cons.1 hval with rfl | hval'
  · unfold resolve_conflict
    rw [if_neg (by decide), if_neg (by decide)]
    exact askLoop_decision _ stdin
  · have hne : policy ≠ "ask" := by
      rcases List.mem_cons.1 hval' with rfl | h
      · decide
      rcases List.mem_cons.1 h with rfl | h'
      · decide
      rcases List.mem_cons.1 h' with rfl | h''
      · decide
      · exact absurd h'' (by simp)
    unfold resolve_conflict
    rw [if_pos hne]
    show policy ∈ ["overwrite", "skip", "abort"]
    rcases List.mem_cons.1 hval' with rfl | h
    · simp
    rcases List.mem_cons.1 h with rfl | h'
    · simp
    rcases List.mem_cons.1 h' with rfl | h''
    · simp
    · exact absurd h'' (by simp)

theorem copy_skill_cases (fs : FS) (s dest : FsPath) (policy : String)
    (stdin : List String) (hval : policy ∈ ["ask", "skip", "overwrite", "abort"]) :
    ((copy_skill fs s dest policy false stdin).action = none ∧
      (copy_skill fs s dest policy false stdin).fs = fs) ∨
    ((copy_skill fs s dest policy false stdin).action = some "skip" ∧
      pathExists fs (dest ++ [pathName s]) = true ∧
      (copy_skill fs s dest policy false stdin).fs = fs) ∨
    ((copy_skill fs s dest policy false stdin).action = some "overwrite" ∧
      pathExists fs (dest ++ [pathName s]) = true ∧
      (copy_skill fs s dest policy false stdin).fs =
        copytree (rmtree fs (dest ++ [pathName s])) s (dest ++ [pathName s])) ∨
    ((copy_skill fs s dest policy false stdin).action = some "copy" ∧
      pathExists fs (dest ++ [pathName s]) = false ∧
      (copy_skill fs s dest policy false stdin).fs =
        copytree fs s (dest ++ [pathName s])) := by
  by_cases hex : pathExists fs (dest ++ [pathName s]) = true
  · have hdec := resolve_decision (dest ++ [pathName s]) policy stdin hval
    simp only [copy_skill]
    rw [if_pos hex]
    by_cases h1 : (resolve_conflict (dest ++ [pathName s]) policy false stdin).1 = "skip"
    · rw [if_pos h1]
      right
      left
      exact ⟨rfl, hex, rfl⟩
    · rw [if_neg h1]
      by_cases h2 : (resolve_conflict (dest ++ [pathName s]) policy false stdin).1 = "abort"
      · rw [if_pos h2]
        left
        exact ⟨rfl, rfl⟩
      · rw [if_neg h2]
        have h3 : (resolve_conflict (dest ++ [pathName s]) policy false stdin).1 =
            "overwrite" := by
          rcases List.mem_cons.1 hdec with h | h
          · exact h
          rcases List.mem_cons.1 h with h' | h'
          · exact absurd h' h1
          rcases List.mem_cons.1 h' with h'' | h''
          · exact absurd h'' h2
          · exact absurd h'' (by simp)
        rw [if_pos (And.intro h3 trivial), if_pos h3, if_neg (by simp : ¬(false = true))]
        right
        right
        left
        exact ⟨rfl, hex, rfl⟩
  · have hex' : pathExists fs (dest ++ [pathName s]) = false := by
      revert hex
      cases pathExists fs (dest ++ [pathName s]) <;> simp
    rw [copy_skill_new_eq fs s dest policy stdin hex']
    right
    right
    right
    exact ⟨rfl, hex', rfl⟩

/-! ### Per-step frame lemmas for the copy loop -/

theorem pfx_dest_child_false {dest q : FsPath} (h : pfx dest q = false) (m : String) :
    pfx (dest ++ [m]) q = false := by
  by_contra hcon
  have hpe : pfx (dest ++ [m]) q = true := by
    revert hcon
    cases pfx (dest ++ [m]) q <;> simp
  have := pfx_trans (pfx_append dest [m]) hpe
  rw [h] at this
  exact absurd this (by simp)

theorem pfx_child_ne_false {r : FsPath} {m n : String} (h : m ≠ n) :
    pfx (r ++ [m]) (r ++ [n]) = false := by
  by_contra hcon
  have hpe : pfx (r ++ [m]) (r ++ [n]) = true := by
    revert hcon
    cases pfx (r ++ [m]) (r ++ [n]) <;> simp
  exact h (pfx_child hpe)

theorem pfx_cons_head {m n : String} {l : List String} {r : FsPath}
    (h : pfx (r ++ [m]) (r ++ n :: l) = true) : m = n := by
  have h' := pfx_append_cancel.1 h
  rw [pfx_iff] at h'
  simpa using h'.symm

theorem mem_copytree_cases {fs : FS} {src dst q : FsPath} {node : Node}
    (h : (q, node) ∈ copytree fs src dst) :
    (q, node) ∈ fs ∨ pfx dst q = true := by
  unfold copytree at h
  rcases List.mem_append.1 h with h1 | h1
  · exact Or.inl h1
  · obtain ⟨e, _, hcond⟩ := List.mem_filterMap.1 h1
    by_cases hp : pfx src e.1 = true
    · rw [if_pos hp] at hcond
      have hq : dst ++ e.1.drop src.length = q := congrArg Prod.fst (Option.some_inj.1 hcond)
      right
      rw [← hq]
      exact pfx_append dst _
    · rw [if_neg hp] at hcond
      exact absurd hcond (by simp)

theorem mem_rmtree_iff {fs : FS} {p q : FsPath} {node : Node} :
    (q, node) ∈ rmtree fs p ↔ (q, node) ∈ fs ∧ pfx p q = false := by
  unfold rmtree
  rw [List.mem_filter]
  constructor
  · rintro ⟨h1, h2⟩
    refine ⟨h1, ?_⟩
    revert h2
    cases pfx p q <;> simp
  · rintro ⟨h1, h2⟩
    exact ⟨h1, by simp [h2]⟩

theorem mem_copytree_of_mem {fs : FS} {src dst q : FsPath} {node : Node}
    (h : (q, node) ∈ fs) : (q, node) ∈ copytree fs src dst := by
  unfold copytree
  exact List.mem_append_left _ h

theorem copy_skill_frame (fs : FS) (s dest : FsPath) (policy : String)
    (stdin : List String) (names : List String)
    (hval : policy ∈ ["ask", "skip", "overwrite", "abort"])
    (hsn : pathName s ∈ names) (q : FsPath) (node : Node)
    (hq : ∀ m ∈ names, pfx (dest ++ [m]) q = false) :
    ((q, node) ∈ (copy_skill fs s dest policy false stdin).fs ↔ (q, node) ∈ fs) := by
  have hdq : pfx (dest ++ [pathName s]) q = false := hq _ hsn
  rcases copy_skill_cases fs s dest policy stdin hval with ⟨_, hfs⟩ | ⟨_, _, hfs⟩ |
    ⟨_, _, hfs⟩ | ⟨_, _, hfs⟩
  · rw [hfs]
  · rw [hfs]
  · rw [hfs]
    constructor
    · intro hmem
      rcases mem_copytree_cases hmem with h1 | h1
      · exact (mem_rmtree_iff.1 h1).1
      · rw [hdq] at h1
        exact absurd h1 (by simp)
    · intro hmem
      exact mem_copytree_of_mem (mem_rmtree_iff.2 ⟨hmem, hdq⟩)
  · rw [hfs]
    constructor
    · intro hmem
      rcases mem_copytree_cases hmem with h1 | h1
      · exact h1
      · rw [hdq] at h1
        exact absurd h1 (by simp)
    · exact mem_copytree_of_mem

theorem copy_skill_adds (fs : FS) (s dest : FsPath) (policy : String)
    (stdin : List String)
    (hval : policy ∈ ["ask", "skip", "overwrite", "abort"]) (q : FsPath) (node : Node)
    (hmem : (q, node) ∈ (copy_skill fs s dest policy false stdin).fs) :
    (q, node) ∈ fs ∨ pfx (dest ++ [pathName s]) q = true := by
  rcases copy_skill_cases fs s dest policy stdin hval with ⟨_, hfs⟩ | ⟨_, _, hfs⟩ |
    ⟨_, _, hfs⟩ | ⟨_, _, hfs⟩
  · rw [hfs] at hmem
    exact Or.inl hmem
  · rw [hfs] at hmem
    exact Or.inl hmem
  · rw [hfs] at hmem
    rcases mem_copytree_cases hmem with h1 | h1
    · exact Or.inl (mem_rmtree_iff.1 h1).1
    · exact Or.inr h1
  · rw [hfs] at hmem
    rcases mem_copytree_cases hmem with h1 | h1
    · exact Or.inl h1
    · exact Or.inr h1

theorem copy_skill_estab (fs : FS) (s dest : FsPath) (policy : String)
    (stdin : List String)
    (hval : policy ∈ ["ask", "skip", "overwrite", "abort"])
    (hsrc : ∃ node, (s, node) ∈ fs) (hout : pfx dest s = false)
    (hnoabort : (copy_skill fs s dest policy false stdin).action ≠ none) :
    pathExists (copy_skill fs s dest policy false stdin).fs
      (dest ++ [pathName s]) = true := by
  obtain ⟨node, hnode⟩ := hsrc
  have hsafe : pfx (dest ++ [pathName s]) s = false := pfx_dest_child_false hout _
  rcases copy_skill_cases fs s dest policy stdin hval with ⟨ha, _⟩ | ⟨_, hex, hfs⟩ |
    ⟨_, _, hfs⟩ | ⟨_, _, hfs⟩
  · exact absurd ha hnoabort
  · rw [hfs]
    exact hex
  · rw [hfs]
    exact pathExists_iff.2 ⟨node, mem_copytree_root (mem_rmtree_iff.2 ⟨hnode, hsafe⟩)⟩
  · rw [hfs]
    exact pathExists_iff.2 ⟨node, mem_copytree_root hnode⟩

theorem copy_skill_exists_persist (fs : FS) (s dest : FsPath) (policy : String)
    (stdin : List String)
    (hval : policy ∈ ["ask", "skip", "overwrite", "abort"])
    (hsrc : ∃ node, (s, node) ∈ fs) (hout : pfx dest s = false) (m : String)
    (h : pathExists fs (dest ++ [m]) = true) :
    pathExists (copy_skill fs s dest policy false stdin).fs (dest ++ [m]) = true := by
  obtain ⟨nodem, hnodem⟩ := pathExists_iff.1 h
  obtain ⟨nodes, hnodes⟩ := hsrc
  have hsafe : pfx (dest ++ [pathName s]) s = false := pfx_dest_child_false hout _
  rcases copy_skill_cases fs s dest policy stdin hval with ⟨_, hfs⟩ | ⟨_, _, hfs⟩ |
    ⟨_, _, hfs⟩ | ⟨_, _, hfs⟩
  · rw [hfs]
    exact h
  · rw [hfs]
    exact h
  · rw [hfs]
    by_cases hmn : m = pathName s
    · rw [hmn]
      exact pathExists_iff.2
        ⟨nodes, mem_copytree_root (mem_rmtree_iff.2 ⟨hnodes, hsafe⟩)⟩
    · have hsurv : pfx (dest ++ [pathName s]) (dest ++ [m]) = false :=
        pfx_child_ne_false (fun hcon => hmn hcon.symm)
      exact pathExists_iff.2
        ⟨nodem, mem_copytree_of_mem (mem_rmtree_iff.2 ⟨hnodem, hsurv⟩)⟩
  · rw [hfs]
    exact pathExists_iff.2 ⟨nodem, mem_copytree_of_mem hnodem⟩

theorem copyLoop_cons_none_state (dest : FsPath) (policy : String) (dry : Bool)
    (s : FsPath) (rest : List FsPath) (st : LoopState)
    (h : (copy_skill st.fs s dest policy dry st.stdin).action = none) :
    (copyLoop dest policy dry (s :: rest) st).1 = true ∧
    (copyLoop dest policy dry (s :: rest) st).2.fs =
      (copy_skill st.fs s dest policy dry st.stdin).fs := by
  simp only [copyLoop, h]
  exact ⟨trivial, trivial⟩

theorem copyLoop_exists_persist (dest : FsPath) (policy : String)
    (hval : policy ∈ ["ask", "skip", "overwrite", "abort"]) :
    ∀ (skills : List FsPath) (st : LoopState) (m : String),
      (∀ x ∈ skills, pfx dest x = false) →
      (∀ x ∈ skills, ∃ node, (x, node) ∈ st.fs) →
      pathExists st.fs (dest ++ [m]) = true →
      pathExists (copyLoop dest policy false skills st).2.fs (dest ++ [m]) = true
  | [], _, _, _, _, h => h
  | s :: rest, st, m, hout, hsrc, h => by
    cases hact : (copy_skill st.fs s dest policy false st.stdin).action with
    | none =>
      rw [(copyLoop_cons_none_state dest policy false s rest st hact).2]
      rw [copy_skill_abort_fs hact]
      exact h
    | some a =>
      rw [copyLoop_cons_some dest policy false s rest st a hact]
      have hsn : ∀ x ∈ rest, ∃ node,
          (x, node) ∈ (copy_skill st.fs s dest policy false st.stdin).fs := by
        intro x hx
        obtain ⟨node, hnode⟩ := hsrc x (List.mem_cons_of_mem _ hx)
        refine ⟨node, ?_⟩
        rcases copy_skill_cases st.fs s dest policy st.stdin hval with ⟨_, hfs⟩ |
          ⟨_, _, hfs⟩ | ⟨_, _, hfs⟩ | ⟨_, _, hfs⟩
        · rw [hfs]
          exact hnode
        · rw [hfs]
          exact hnode
        · rw [hfs]
          exact mem_copytree_of_mem (mem_rmtree_iff.2
            ⟨hnode, pfx_dest_child_false (hout x (List.mem_cons_of_mem _ hx)) _⟩)
        · rw [hfs]
          exact mem_copytree_of_mem hnode
      exact copyLoop_exists_persist dest policy hval rest _ m
        (fun x hx => hout x (List.mem_cons_of_mem _ hx)) hsn
        (copy_skill_exists_persist st.fs s dest policy st.stdin hval
          (hsrc s (List.mem_cons_self _ _)) (hout s (List.mem_cons_self _ _)) m h)

/-! ### The copy-loop invariant -/

theorem copyLoop_frame (dest : FsPath) (policy : String) (names : List String)
    (hval : policy ∈ ["ask", "skip", "overwrite", "abort"]) :
    ∀ (skills : List FsPath) (st : LoopState),
      (∀ s ∈ skills, pathName s ∈ names) →
      (∀ s ∈ skills, pfx dest s = false) →
      (∀ s ∈ skills, ∃ node, (s, node) ∈ st.fs) →
      (copyLoop dest policy false skills st).1 = false →
      (∀ s ∈ skills,
        pathExists (copyLoop dest policy false skills st).2.fs
          (dest ++ [pathName s]) = true) ∧
      (∀ q node, (∀ m ∈ names, pfx (dest ++ [m]) q = false) →
        ((q, node) ∈ (copyLoop dest policy false skills st).2.fs ↔
          (q, node) ∈ st.fs)) ∧
      (∀ q node, (q, node) ∈ (copyLoop dest policy false skills st).2.fs →
        (q, node) ∈ st.fs ∨ ∃ m ∈ names, pfx (dest ++ [m]) q = true)
  | [], st, _, _, _, _ =>
    ⟨by simp, fun q node _ => Iff.rfl, fun q node h => Or.inl h⟩
  | s :: rest, st, hn, hout, hsrc, hab => by
    cases hact : (copy_skill st.fs s dest policy false st.stdin).action with
    | none =>
      rw [(copyLoop_cons_none_state dest policy false s rest st hact).1] at hab
      exact absurd hab (by simp)
    | some a =>
      rw [copyLoop_cons_some dest policy false s rest st a hact] at hab ⊢
      have hsnames : pathName s ∈ names := hn s (List.mem_cons_self _ _)
      have houts : pfx dest s = false := hout s (List.mem_cons_self _ _)
      have hsrcS : ∃ node, (s, node) ∈ st.fs := hsrc s (List.mem_cons_self _ _)
      have hstep_mem : ∀ x ∈ rest, ∃ node,
          (x, node) ∈ (copy_skill st.fs s dest policy false st.stdin).fs := by
        intro x hx
        obtain ⟨node, hnode⟩ := hsrc x (List.mem_cons_of_mem _ hx)
        exact ⟨node,
          (copy_skill_frame st.fs s dest policy st.stdin names hval hsnames x node
            (fun m _ =>
              pfx_dest_child_false (hout x (List.mem_cons_of_mem _ hx)) m)).2 hnode⟩
      obtain ⟨ih1, ih2, ih3⟩ := copyLoop_frame dest policy names hval rest _
        (fun x hx => hn x (List.mem_cons_of_mem _ hx))
        (fun x hx => hout x (List.mem_cons_of_mem _ hx))
        hstep_mem hab
      refine ⟨?_, ?_, ?_⟩
      · intro x hx
        rcases List.mem_cons.1 hx with rfl | hx'
        · exact copyLoop_exists_persist dest policy hval rest _ (pathName x)
            (fun y hy => hout y (List.mem_cons_of_mem _ hy)) hstep_mem
            (copy_skill_estab st.fs x dest policy st.stdin hval hsrcS houts
              (by rw [hact]; simp))
        · exact ih1 x hx'
      · intro q node hq
        rw [ih2 q node hq]
        exact copy_skill_frame st.fs s dest policy st.stdin names hval hsnames q node hq
      · intro q node hmem
        rcases ih3 q node hmem with h1 | h1
        · rcases copy_skill_adds st.fs s dest policy st.stdin hval q node h1 with h2 | h2
          · exact Or.inl h2
          · exact Or.inr ⟨pathName s, hsnames, h2⟩
        · exact Or.inr h1

/-! ### Claim C2: prune correctness -/

theorem pfx_parent_false (r : FsPath) (m : String) : pfx (r ++ [m]) r = false := by
  by_contra hcon
  have hpe : pfx (r ++ [m]) r = true := by
    revert hcon
    cases pfx (r ++ [m]) r <;> simp
  have := length_le_of_pfx hpe
  simp at this

theorem mainSkills_under_root (cfg : Config) (fs : FS) :
    ∀ s ∈ mainSkills cfg fs, ∃ pr ∈ sourcesOf cfg, pfx pr.1 s = true := by
  intro s hs
  unfold mainSkills at hs
  obtain ⟨pr, hpr, hmem⟩ := List.mem_flatMap.1 hs
  refine ⟨pr, validSourcesMsgs_subset fs (sourcesOf cfg) pr hpr, ?_⟩
  cases hrec : pr.2 with
  | false =>
    rw [hrec] at hmem
    obtain ⟨n, rfl, _, _, _⟩ := mem_list_skill_dirs_nonrec.1 hmem
    exact pfx_append pr.1 [n]
  | true =>
    rw [hrec] at hmem
    exact (mem_list_skill_dirs_rec.1 hmem).1

theorem mainRun_abort_proj (cfg : Config) (fs : FS) (stdin : List String)
    (hab : (mainLoop cfg fs stdin).1 = true) :
    (mainRun cfg fs stdin).exitCode = 2 ∧
    (mainRun cfg fs stdin).fs = (mainLoop cfg fs stdin).2.fs := by
  unfold mainRun
  rw [if_pos hab]
  exact ⟨rfl, rfl⟩

theorem mainRun_fs_success_prune (cfg : Config) (fs : FS) (stdin : List String)
    (hab : (mainLoop cfg fs stdin).1 = false)
    (hm : cfg.mode = "sync" ∧ cfg.prune = true)
    (hde : pathExists (mainLoop cfg fs stdin).2.fs cfg.dest = true) :
    (mainRun cfg fs stdin).fs =
      (prune_dest ((mainSkills cfg fs).map pathName) (mainLoop cfg fs stdin).2.fs
        cfg.dest cfg.dry_run).fs := by
  unfold mainRun
  rw [if_neg (by simp [hab])]
  show (prunePhase cfg fs stdin).2.1 = _
  unfold prunePhase
  rw [if_pos hm, if_neg (by simp [hde])]

/-- Claim C2 counterexample: after a successful non-preview sync run with
prune enabled, a stray top-level destination file (not a skill directory)
survives, so the destination's top-level entries do not equal the set of
discovered skill names. -/
theorem claim_C2_counterexample :
    (main ⟨["s"], [], false, false, ["d"], "sync", "overwrite", false, true⟩
        [(["s"], Node.dirNode), (["s", "a"], Node.dirNode),
         (["s", "a", "SKILL.md"], Node.file "A"), (["d"], Node.dirNode),
         (["d", "stray"], Node.file "S")] []).exitCode = 0 ∧
    pathExists (main ⟨["s"], [], false, false, ["d"], "sync", "overwrite", false, true⟩
        [(["s"], Node.dirNode), (["s", "a"], Node.dirNode),
         (["s", "a", "SKILL.md"], Node.file "A"), (["d"], Node.dirNode),
         (["d", "stray"], Node.file "S")] []).fs ["d", "stray"] = true ∧
    "stray" ∉ (mainSkills ⟨["s"], [], false, false, ["d"], "sync", "overwrite", false, true⟩
        [(["s"], Node.dirNode), (["s", "a"], Node.dirNode),
         (["s", "a", "SKILL.md"], Node.file "A"), (["d"], Node.dirNode),
         (["d", "stray"], Node.file "S")]).map pathName := by
  refine ⟨by decide, by decide, by decide⟩

/-- Claim C2 (amended): after a successful non-preview `sync` run with
`prune=true` — provided the conflict policy is one of the four valid ones,
sources and destination lie in disjoint parts of the filesystem, every
discovered skill directory is present as an entry, at least one skill is
discovered, and every pre-existing top-level destination entry is a
non-hidden directory directly containing a `SKILL.md` file — the set of
top-level entries of the destination equals exactly the set of skill names
discovered across all valid sources in that run. -/
theorem claim_C2_prune_sync (cfg : Config) (fs : FS) (stdin : List String)
    (hmode : cfg.mode = "sync") (hprune : cfg.prune = true)
    (hdry : cfg.dry_run = false)
    (hval : cfg.conflict ∈ ["ask", "skip", "overwrite", "abort"])
    (hsep : ∀ pr ∈ sourcesOf cfg, pfx cfg.dest pr.1 = false ∧ pfx pr.1 cfg.dest = false)
    (hsrcs : ∀ s ∈ mainSkills cfg fs, ∃ node, (s, node) ∈ fs)
    (hdest0 : ∀ n node, (cfg.dest ++ [n], node) ∈ fs →
      startsDot n = false ∧ node = Node.dirNode ∧
        isFile fs (cfg.dest ++ [n, "SKILL.md"]) = true)
    (hskne : mainSkills cfg fs ≠ [])
    (hexit : (main cfg fs stdin).exitCode = 0) :
    ∀ n, pathExists (main cfg fs stdin).fs (cfg.dest ++ [n]) = true ↔
      n ∈ (mainSkills cfg fs).map pathName := by
  have hguard : ¬(cfg.prune = true ∧ cfg.mode ≠ "sync") := by
    rw [hmode]
    simp
  have hvalid : validSources cfg fs ≠ [] := by
    intro hv
    rw [main_eq_novalid cfg fs stdin hguard hv] at hexit
    simp at hexit
  have hmrun := main_eq_run cfg fs stdin hguard hvalid hskne
  have hab : (mainLoop cfg fs stdin).1 = false := by
    by_contra hcon
    have htrue : (mainLoop cfg fs stdin).1 = true := by
      revert hcon
      cases (mainLoop cfg fs stdin).1 <;> simp
    rw [hmrun, (mainRun_abort_proj cfg fs stdin htrue).1] at hexit
    exact absurd hexit (by decide)
  have hdne : cfg.dest ≠ [] := by
    intro h0
    have hh := (hsep (cfg.source, cfg.recursive)
      (by unfold sourcesOf; exact List.mem_cons_self _ _)).1
    rw [h0, pfx_nil] at hh
    exact absurd hh (by simp)
  obtain ⟨mk, hmk, hmkp⟩ : ∃ mk, (ensureDest cfg fs).1 = fs ++ mk ∧
      ∀ e ∈ mk, pfx e.1 cfg.dest = true := by
    unfold ensureDest
    by_cases hx : pathExists fs cfg.dest = false
    · rw [if_pos hx, if_neg (by simp [hdry])]
      exact mkdirp_ext fs cfg.dest
    · rw [if_neg hx]
      exact ⟨[], (List.append_nil fs).symm, by simp⟩
  have hdest1 : pathExists (ensureDest cfg fs).1 cfg.dest = true := by
    unfold ensureDest
    by_cases hx : pathExists fs cfg.dest = false
    · rw [if_pos hx, if_neg (by simp [hdry])]
      exact pathExists_iff.2 ⟨Node.dirNode, mem_mkdirp_self fs cfg.dest hdne hx⟩
    · rw [if_neg hx]
      revert hx
      cases pathExists fs cfg.dest <;> simp
  have hsrc1 : ∀ s ∈ mainSkills cfg fs, ∃ node, (s, node) ∈ (ensureDest cfg fs).1 := by
    intro s hs
    obtain ⟨node, hnode⟩ := hsrcs s hs
    exact ⟨node, by rw [hmk]; exact List.mem_append_left _ hnode⟩
  have hout : ∀ s ∈ mainSkills cfg fs, pfx cfg.dest s = false := by
    intro s hs
    obtain ⟨pr, hpr, hpf⟩ := mainSkills_under_root cfg fs s hs
    by_contra hcon
    have hde : pfx cfg.dest s = true := by
      revert hcon
      cases pfx cfg.dest s <;> simp
    rcases pfx_comparable hde hpf with hc | hc
    · rw [(hsep pr hpr).1] at hc
      exact absurd hc (by simp)
    · rw [(hsep pr hpr).2] at hc
      exact absurd hc (by simp)
  have hml : mainLoop cfg fs stdin =
      copyLoop cfg.dest cfg.conflict false (mainSkills cfg fs)
        ⟨(ensureDest cfg fs).1, stdin, [], 0, 0, 0⟩ := by
    unfold mainLoop initLoop
    rw [hdry]
  have hab' : (copyLoop cfg.dest cfg.conflict false (mainSkills cfg fs)
      ⟨(ensureDest cfg fs).1, stdin, [], 0, 0, 0⟩).1 = false := by
    rw [← hml]
    exact hab
  obtain ⟨I1, I2, I3⟩ := copyLoop_frame cfg.dest cfg.conflict
    ((mainSkills cfg fs).map pathName) hval (mainSkills cfg fs)
    ⟨(ensureDest cfg fs).1, stdin, [], 0, 0, 0⟩
    (fun s hs => List.mem_map_of_mem _ hs) hout hsrc1 hab'
  have hdestF2 : pathExists (mainLoop cfg fs stdin).2.fs cfg.dest = true := by
    obtain ⟨node0, hnode0⟩ := pathExists_iff.1 hdest1
    rw [hml]
    exact pathExists_iff.2
      ⟨node0, (I2 cfg.dest node0 (fun m _ => pfx_parent_false cfg.dest m)).2 hnode0⟩
  have hRfs : (main cfg fs stdin).fs =
      (prune_dest ((mainSkills cfg fs).map pathName) (mainLoop cfg fs stdin).2.fs
        cfg.dest false).fs := by
    rw [hmrun, mainRun_fs_success_prune cfg fs stdin hab ⟨hmode, hprune⟩ hdestF2, hdry]
  intro n
  rw [hRfs, prune_dest_fs_false]
  constructor
  · intro hpe
    obtain ⟨node, hmem3⟩ := pathExists_iff.1 hpe
    obtain ⟨hmem2, hcond⟩ := List.mem_filter.1 hmem3
    by_contra hn
    have hmem2' := hmem2
    rw [hml] at hmem2'
    have hnode_fs : (cfg.dest ++ [n], node) ∈ fs := by
      rcases I3 _ node hmem2' with h1 | ⟨m, hm, hpf⟩
      · rw [hmk] at h1
        rcases List.mem_append.1 h1 with h2 | h2
        · exact h2
        · exfalso
          have hp := hmkp _ h2
          have hlen := length_le_of_pfx hp
          simp at hlen
      · exfalso
        apply hn
        rw [← pfx_child hpf]
        exact hm
    obtain ⟨hhid, hnd, hmarker⟩ := hdest0 n node hnode_fs
    obtain ⟨c, hcmem⟩ := isFile_iff.1 hmarker
    have hmarker2 : (cfg.dest ++ [n, "SKILL.md"], Node.file c) ∈
        (mainLoop cfg fs stdin).2.fs := by
      rw [hml]
      apply (I2 _ _ ?_).2
      · rw [hmk]
        exact List.mem_append_left _ hcmem
      · intro m hm
        by_contra hcon
        have hpe2 : pfx (cfg.dest ++ [m]) (cfg.dest ++ n :: ["SKILL.md"]) = true := by
          revert hcon
          cases pfx (cfg.dest ++ [m]) (cfg.dest ++ n :: ["SKILL.md"]) <;> simp
        rw [pfx_cons_head hpe2] at hm
        exact hn hm
    have hscan : cfg.dest ++ [n] ∈
        list_skill_dirs (mainLoop cfg fs stdin).2.fs cfg.dest false := by
      apply mem_list_skill_dirs_nonrec.2
      refine ⟨n, rfl, hhid, ?_, ?_⟩
      · apply isDir_iff.2
        rw [hnd] at hmem2
        exact hmem2
      · exact isFile_iff.2 ⟨c, hmarker2⟩
    have hfail := List.all_eq_true.1 hcond _ hscan
    rw [pathName_append, pfx_refl] at hfail
    simp at hfail
    exact hn (List.mem_map.2 hfail)
  · intro hn
    obtain ⟨s, hs, rfl⟩ := List.mem_map.1 hn
    have hx2 : pathExists (mainLoop cfg fs stdin).2.fs
        (cfg.dest ++ [pathName s]) = true := by
      rw [hml]
      exact I1 s hs
    obtain ⟨node, hmem2⟩ := pathExists_iff.1 hx2
    apply pathExists_iff.2
    refine ⟨node, List.mem_filter.2 ⟨hmem2, ?_⟩⟩
    rw [List.all_eq_true]
    intro d hd
    obtain ⟨m, hdm, _, _, _⟩ := mem_list_skill_dirs_nonrec.1 hd
    subst hdm
    by_cases hmn : m = pathName s
    · rw [pathName_append]
      subst hmn
      simp only [Bool.or_eq_true, decide_eq_true_eq]
      exact Or.inl (List.mem_map_of_mem _ hs)
    · have hne := pfx_child_ne_false (r := cfg.dest) hmn
      simp [hne]

/-- Witness for claim C6 at a concrete input: a second copy run with the
skip policy changes nothing and skips every skill. -/
theorem claim_C6_witness :
    (main c6cfg (main c6cfg c6fs []).fs []).fs = (main c6cfg c6fs []).fs ∧
    (main c6cfg (main c6cfg c6fs []).fs []).ncopy = 0 ∧
    (main c6cfg (main c6cfg c6fs []).fs []).nover = 0 ∧
    (main c6cfg (main c6cfg c6fs []).fs []).nskip =
      (mainSkills c6cfg (main c6cfg c6fs []).fs).length :=
  claim_C6_idempotent c6cfg c6fs [] [] rfl rfl rfl rfl (by decide)
    (by
      intro s hs
      have hms : mainSkills c6cfg c6fs = [["s", "a"]] := by decide
      rw [hms] at hs
      rcases List.mem_cons.1 hs with rfl | hs'
      · exact ⟨Node.dirNode, by decide⟩
      · exact absurd hs' (by simp))

/-- Witness for claim C2 at a concrete input: after the sync-with-prune run
the stale destination skill `c` is gone, matching the discovered names. -/
theorem claim_C2_witness :
    pathExists (main c2cfg c2fs []).fs (c2cfg.dest ++ ["c"]) = true ↔
      "c" ∈ (mainSkills c2cfg c2fs).map pathName :=
  claim_C2_prune_sync c2cfg c2fs [] rfl rfl rfl (by decide) (by decide)
    (by
      intro s hs
      have hms : mainSkills c2cfg c2fs = [["s", "a"]] := by decide
      rw [hms] at hs
      rcases List.mem_cons.1 hs with rfl | hs'
      · exact ⟨Node.dirNode, by decide⟩
      · exact absurd hs' (by simp))
    (by
      intro n node h
      have hd : c2cfg.dest = ["d"] := rfl
      rw [hd] at h
      simp [c2fs] at h
      rcases h with ⟨rfl, rfl⟩
      exact ⟨by decide, rfl, by decide⟩)
    (by decide) (by decide) "c"

end SkillSync
